import Mathlib

/-!
Verification development for the bfuck toolchain.

The front-end (`code.rs`) is embedded faithfully: the lexer, the
adjacency-merge pass, the bracket validator, the three pattern passes
(clear-cell, add-to, add-to-copy) and the jump resolver, composed in
`process_code`.  Machine integers are modelled as `Nat` with explicit
`% 256` / `% STORAGE_SIZE` where the Rust code wraps.  Index-based loops
over vectors become structural recursions over `List` with an index (and,
where the Rust loop variable can jump, a fuel argument that is provably
sufficient on every reachable call).  A `panic`/`unwrap` that can fail is
modelled by `Option`/a dedicated stuck status, never by a default value.

The execution engines present in the crate (`interpret.rs`, `jit.rs`)
predate the current `Token` enum: they pattern-match a variant `Mov` that
does not exist in `code.rs`, use payload-less bracket patterns, and have
no arms for `ClearCell`, `AddTo`, `AddToCopy`.  They are embedded under
the charitable renaming `Mov ↦ Move` (bracket payloads ignored, exactly
as the old patterns do); an opcode for which the source has no match arm
sends the machine into a dedicated `stuckUnhandled` status, and the
partial operations the source does contain (the loop-stack `unwrap`, the
forward scan's indexing, the JIT emitter's block-stack `pop().unwrap()`)
into `stuckBracket` / `stuckPop`.
-/

namespace Bfuck

/-- The array size used in the Brainfuck program (`STORAGE_SIZE` in code.rs). -/
def STORAGE_SIZE : Nat := 30000

/-- The `Token` enum of code.rs.  Payloads are `Nat` (u8 payloads carry the
invariant `< 256` through explicit `% 256` arithmetic). -/
inductive Token where
  | Add (n : Nat)
  | Move (n : Nat)
  | Input
  | Output
  | OpenBr (jmp : Nat)
  | CloseBr (jmp : Nat)
  | ClearCell
  | AddTo (d : Nat)
  | AddToCopy (d1 d2 : Nat)
deriving DecidableEq

/-- The `Error` enum of error.rs. -/
inductive Error where
  | NonASCIIChar (c : Char) (row col : Nat)
  | UnmatchedOpenBr (row col : Nat)
  | UnmatchedCloseBr (row col : Nat)
  | UnsupportedPlatformJIT
  | UnsupportedTarget
deriving DecidableEq

/-- A token with its (line, column) location, both 1-based, as used by the
front-end passes of code.rs. -/
abbrev LTok := Token × Nat × Nat

/-! ## Lexer (the token-generation loop of `process_code`) -/

/-- The character table of `process_code`'s lexing loop. -/
def char_token (ch : Char) : Option Token :=
  if ch = '+' then some (.Add 1)
  else if ch = '-' then some (.Add 255)
  else if ch = '<' then some (.Move (STORAGE_SIZE - 1))
  else if ch = '>' then some (.Move 1)
  else if ch = ',' then some .Input
  else if ch = '.' then some .Output
  else if ch = '[' then some (.OpenBr 0)
  else if ch = ']' then some (.CloseBr 0)
  else none

/-- Lex one line: `i` is the 0-based line index, columns are 1-based. -/
def lex_line (i : Nat) (line : List Char) : List LTok :=
  line.enum.filterMap fun jc => (char_token jc.2).map fun t => (t, i + 1, jc.1 + 1)

/-- Split on a newline character, accumulator-style. -/
def split_lines_aux : List Char → List Char → List (List Char)
  | [], acc => [acc.reverse]
  | c :: rest, acc =>
    if c = '\n' then acc.reverse :: split_lines_aux rest []
    else split_lines_aux rest (c :: acc)

/-- Remove one trailing carriage return, as Rust's `str::lines` does. -/
def strip_cr (l : List Char) : List Char :=
  if l.getLast? = some '\r' then l.dropLast else l

/-- Rust's `str::lines`: split at newline, drop a final empty segment,
strip one trailing CR from each line. -/
def rust_lines (cs : List Char) : List (List Char) :=
  let ls := split_lines_aux cs []
  let ls := if ls.getLast? = some [] then ls.dropLast else ls
  ls.map strip_cr

/-- The lexing phase of `process_code`: line/column-annotated raw tokens. -/
def lex (code : String) : List LTok :=
  ((rust_lines code.data).enum).flatMap fun il => lex_line il.1 il.2

/-! ## merge_adjacent -/

/-- One step of `merge_adjacent`'s loop.  The accumulator is kept in
reverse order: its head is the Rust vector's `last_mut()`, cons is `push`,
dropping the head is `pop`. -/
def merge_step (acc : List LTok) (t : LTok) : List LTok :=
  match acc with
  | (Token.Add n, r, c) :: rest =>
    match t.1 with
    | Token.Add m =>
      if (n + m) % 256 = 0 then rest else (Token.Add ((n + m) % 256), r, c) :: rest
    | _ => t :: acc
  | (Token.Move n, r, c) :: rest =>
    match t.1 with
    | Token.Move m =>
      if (n + m) % STORAGE_SIZE = 0 then rest
      else (Token.Move ((n + m) % STORAGE_SIZE), r, c) :: rest
    | _ => t :: acc
  | _ => t :: acc

/-- `merge_adjacent` of code.rs. -/
def merge_adjacent (tokens : List LTok) : List LTok :=
  (tokens.foldl merge_step []).reverse

/-! ## check_loops -/

/-- The scan of `check_loops`, carrying the stack of opener locations
(head = top of the Rust `Vec`). -/
def check_loops_go : List LTok → List (Nat × Nat) → Except Error Unit
  | [], stk =>
    match stk with
    | (r, c) :: _ => .error (.UnmatchedOpenBr r c)
    | [] => .ok ()
  | (t, r, c) :: rest, stk =>
    match t with
    | Token.OpenBr _ => check_loops_go rest ((r, c) :: stk)
    | Token.CloseBr _ =>
      match stk with
      | [] => .error (.UnmatchedCloseBr r c)
      | _ :: stk2 => check_loops_go rest stk2
    | _ => check_loops_go rest stk

/-- `check_loops` of code.rs. -/
def check_loops (tokens : List LTok) : Except Error Unit :=
  check_loops_go tokens []

/-! ## Index-level helpers shared by the pattern passes -/

/-- `tokens[i].0 = tk` of the Rust code: overwrite the token, keep the
location.  Out of range: no change (never reached on the source's calls). -/
def set_tok (ts : List LTok) (i : Nat) (tk : Token) : List LTok :=
  match ts[i]? with
  | some p => ts.set i (tk, p.2.1, p.2.2)
  | none => ts

/-- `tokens.drain(a..b)`: remove the index range `[a, b)`. -/
def erase_range (ts : List LTok) (a b : Nat) : List LTok :=
  ts.take a ++ ts.drop b

/-! ## clear_cell -/

/-- The absorb loop of `clear_cell`: while the previous token is `OpenBr`
and the next is `CloseBr`, move left and fuse them into the `ClearCell`.
The second argument is the Rust loop's `i` (the current `ClearCell`
position); matching on `i + 1` realises the `i != 0` guard. -/
def clear_cell_absorb : List LTok → Nat → List LTok × Nat
  | ts, 0 => (ts, 0)
  | ts, i + 1 =>
    if i + 1 = ts.length - 1 then (ts, i + 1)
    else
      match ts[i]?, ts[i + 2]? with
      | some (Token.OpenBr _, _, _), some (Token.CloseBr _, _, _) =>
        clear_cell_absorb (erase_range (set_tok ts i Token.ClearCell) (i + 1) (i + 3)) i
      | _, _ => (ts, i + 1)

/-- The body of `clear_cell`'s outer loop at index `i`: recognise the
`OpenBr, Add(_), CloseBr` triple, replace it by `ClearCell`, absorb
surrounding loops.  Returns the new list and the new value of `i`. -/
def clear_cell_step (ts : List LTok) (i : Nat) : List LTok × Nat :=
  if ts.length - i < 3 then (ts, i)
  else
    match ts[i]?, ts[i + 1]?, ts[i + 2]? with
    | some (Token.OpenBr _, _, _), some (Token.Add _, _, _), some (Token.CloseBr _, _, _) =>
      clear_cell_absorb (erase_range (set_tok ts i Token.ClearCell) (i + 1) (i + 3)) i
    | _, _, _ => (ts, i)

/-- The outer right-to-left loop of `clear_cell`.  The first argument is
fuel: the loop index strictly decreases each iteration, so `ts.length`
iterations always suffice, and the fuel-exhausted branch is unreachable
from `clear_cell` itself. -/
def clear_cell_go : Nat → List LTok → Nat → List LTok
  | _, ts, 0 => ts
  | 0, ts, _ + 1 => ts
  | fuel + 1, ts, i + 1 =>
    let p := clear_cell_step ts i
    clear_cell_go fuel p.1 p.2

/-- `clear_cell` of code.rs. -/
def clear_cell (ts : List LTok) : List LTok :=
  clear_cell_go ts.length ts ts.length

/-! ## add_to -/

/-- The absorb loop of `add_to` (also used by `add_to_copy` in the
source, written out twice there): identical to `clear_cell`'s but it
copies the inner token into the opening-bracket slot. -/
def add_to_absorb : List LTok → Nat → List LTok × Nat
  | ts, 0 => (ts, 0)
  | ts, i + 1 =>
    if i + 1 = ts.length - 1 then (ts, i + 1)
    else
      match ts[i]?, ts[i + 2]? with
      | some (Token.OpenBr _, _, _), some (Token.CloseBr _, _, _) =>
        match ts[i + 1]? with
        | some (tk, _, _) =>
          add_to_absorb (erase_range (set_tok ts i tk) (i + 1) (i + 3)) i
        | none => (ts, i + 1)
      | _, _ => (ts, i + 1)

/-- The body of `add_to`'s outer loop at index `i`: the six-token window
`OpenBr, Add(255), Move(m1), Add(1), Move(m2), CloseBr` with
`(m1 + m2) % STORAGE_SIZE == 0` becomes `AddTo(m1)`. -/
def add_to_step (ts : List LTok) (i : Nat) : List LTok × Nat :=
  if ts.length - i < 6 then (ts, i)
  else
    match ts[i]?, ts[i + 1]?, ts[i + 2]?, ts[i + 3]?, ts[i + 4]?, ts[i + 5]? with
    | some (Token.OpenBr _, _, _), some (Token.Add 255, _, _), some (Token.Move m1, _, _),
      some (Token.Add 1, _, _), some (Token.Move m2, _, _), some (Token.CloseBr _, _, _) =>
      if (m1 + m2) % STORAGE_SIZE = 0 then
        add_to_absorb (erase_range (set_tok ts i (Token.AddTo m1)) (i + 1) (i + 6)) i
      else (ts, i)
    | _, _, _, _, _, _ => (ts, i)

/-- The outer right-to-left loop of `add_to` (fueled as in `clear_cell_go`). -/
def add_to_go : Nat → List LTok → Nat → List LTok
  | _, ts, 0 => ts
  | 0, ts, _ + 1 => ts
  | fuel + 1, ts, i + 1 =>
    let p := add_to_step ts i
    add_to_go fuel p.1 p.2

/-- `add_to` of code.rs. -/
def add_to (ts : List LTok) : List LTok :=
  add_to_go ts.length ts ts.length

/-! ## add_to_copy -/

/-- The body of `add_to_copy`'s outer loop at index `i`: the eight-token
window `OpenBr, Add(255), Move(m1), Add(1), Move(m2), Add(1), Move(m3),
CloseBr` with `((m1 + m2) % STORAGE_SIZE + m3) % STORAGE_SIZE == 0`
becomes `AddToCopy(m1, (m1 + m2) % STORAGE_SIZE)`. -/
def add_to_copy_step (ts : List LTok) (i : Nat) : List LTok × Nat :=
  if ts.length - i < 8 then (ts, i)
  else
    match ts[i]?, ts[i + 1]?, ts[i + 2]?, ts[i + 3]?,
          ts[i + 4]?, ts[i + 5]?, ts[i + 6]?, ts[i + 7]? with
    | some (Token.OpenBr _, _, _), some (Token.Add 255, _, _), some (Token.Move m1, _, _),
      some (Token.Add 1, _, _), some (Token.Move m2, _, _), some (Token.Add 1, _, _),
      some (Token.Move m3, _, _), some (Token.CloseBr _, _, _) =>
      if ((m1 + m2) % STORAGE_SIZE + m3) % STORAGE_SIZE = 0 then
        add_to_absorb
          (erase_range (set_tok ts i (Token.AddToCopy m1 ((m1 + m2) % STORAGE_SIZE)))
            (i + 1) (i + 8)) i
      else (ts, i)
    | _, _, _, _, _, _, _, _ => (ts, i)

/-- The outer right-to-left loop of `add_to_copy` (fueled). -/
def add_to_copy_go : Nat → List LTok → Nat → List LTok
  | _, ts, 0 => ts
  | 0, ts, _ + 1 => ts
  | fuel + 1, ts, i + 1 =>
    let p := add_to_copy_step ts i
    add_to_copy_go fuel p.1 p.2

/-- `add_to_copy` of code.rs. -/
def add_to_copy (ts : List LTok) : List LTok :=
  add_to_copy_go ts.length ts ts.length

/-! ## calculate_jumps -/

/-- The left-to-right scan of `calculate_jumps`, stack of open-bracket
indices.  The `loop_stack.pop().unwrap()` of the source is a panic when
the stack is empty; that is the `none` result (proved unreachable for
`process_code`'s call).  Fuel is one unit per index, so `ts.length`
suffices. -/
def calculate_jumps_go : Nat → List LTok → Nat → List Nat → Option (List LTok)
  | 0, ts, _, _ => some ts
  | fuel + 1, ts, i, stk =>
    match ts[i]?, stk with
    | none, _ => some ts
    | some (Token.OpenBr _, _, _), _ => calculate_jumps_go fuel ts (i + 1) (i :: stk)
    | some (Token.CloseBr _, _, _), [] => none
    | some (Token.CloseBr _, _, _), o :: stk2 =>
      calculate_jumps_go fuel
        (set_tok (set_tok ts o (Token.OpenBr (i - o))) i (Token.CloseBr (i - o)))
        (i + 1) stk2
    | some _, _ => calculate_jumps_go fuel ts (i + 1) stk

/-- `calculate_jumps` of code.rs; `none` models the unreachable panic. -/
def calculate_jumps (ts : List LTok) : Option (List LTok) :=
  calculate_jumps_go ts.length ts 0 []

/-! ## process_code -/

/-- `process_code` of code.rs.  The outer `Option` models the panic in
`calculate_jumps` (proved unreachable whenever execution gets there, i.e.
after `check_loops` succeeded); `some` carries the function's actual
`Result`. -/
def process_code (code : String) : Option (Except Error (List Token)) :=
  match check_loops (merge_adjacent (lex code)) with
  | .error e => some (.error e)
  | .ok _ =>
    match calculate_jumps (add_to_copy (add_to (clear_cell (merge_adjacent (lex code))))) with
    | some r => some (.ok (r.map fun p => p.1))
    | none => none

/-! ## The byte I/O port (io.rs)

Input is modelled as the remaining list of stdin bytes (end of list =
EOF, which `getchar` turns into the zero byte); output as the list of
bytes written so far. -/

/-- `getchar` of io.rs: skip carriage returns, return the next byte, or
zero at end of file. -/
def getchar (inp : List Nat) : Nat × List Nat :=
  match inp.dropWhile (fun b => b = 13) with
  | [] => (0, [])
  | b :: rest => (b, rest)

/-- `putchar` of io.rs: bytes above 127 are suppressed. -/
def putchar (out : List Nat) (b : Nat) : List Nat :=
  if b < 128 then out ++ [b] else out

/-! ## The interpreter (interpret.rs)

The file in the crate pattern-matches `Token::Mov(n)` (a variant that
does not exist in code.rs) and payload-less `Token::OpenBr` /
`Token::CloseBr`, and has no arms at all for `ClearCell`, `AddTo`,
`AddToCopy`.  It is embedded under the renaming `Mov ↦ Move` with bracket
payloads ignored; reaching an opcode with no arm sets the machine's
status to `stuckUnhandled`.  The two partial operations the source does
perform — `loop_stack.last().unwrap()` at a `CloseBr`, and the unchecked
indexing `token_stream[ins_ptr]` inside the forward scan at an `OpenBr` —
set the status to `stuckBracket` when they would panic. -/

/-- Why an execution is no longer running. -/
inductive Status where
  | running
  | done
  | stuckUnhandled
  | stuckBracket
deriving DecidableEq

/-- Interpreter state: instruction pointer, data pointer, storage (as a
total function, all cells initially zero), the loop stack (head = top),
output so far, remaining input, and the status. -/
structure InterpSt where
  ins : Nat
  dp : Nat
  tape : Nat → Nat
  stk : List Nat
  out : List Nat
  inp : List Nat
  status : Status

/-- Point update of the storage function. -/
def upd (f : Nat → Nat) (i v : Nat) : Nat → Nat :=
  fun j => if j = i then v else f j

/-- Is the token a `CloseBr`?  (The scan's `!= Token::CloseBr` test.) -/
def is_close : Token → Bool
  | Token.CloseBr _ => true
  | _ => false

/-- The nesting adjustment of the scan (and the signed bracket weight
used throughout the bracket-counting proofs). -/
def br_adj : Token → Int
  | Token.OpenBr _ => 1
  | Token.CloseBr _ => -1
  | _ => 0

/-- The forward scan of `interpret` at an `OpenBr` whose cell is zero:
`while stream[q] != CloseBr || nested != 0 { q += 1; adjust nested }`.
`t` is the token currently at `q` (already read), `n` the `nested_loops`
counter after accounting for `t`.  `none` models the out-of-bounds panic.
Fueled: one unit per increment of `q`, so `s.length` suffices. -/
def scan_go : Nat → List Token → Nat → Token → Int → Option Nat
  | 0, _, _, _, _ => none
  | fuel + 1, s, q, t, n =>
    if is_close t ∧ n = 0 then some q
    else
      match s[q + 1]? with
      | none => none
      | some t2 => scan_go fuel s (q + 1) t2 (n + br_adj t2)

/-- One iteration of `interpret`'s fetch-dispatch loop. -/
def interpret_step (s : List Token) (st : InterpSt) : InterpSt :=
  if st.status ≠ Status.running then st else
  match s[st.ins]? with
  | none => ⟨st.ins, st.dp, st.tape, st.stk, st.out, st.inp, Status.done⟩
  | some t =>
    match t with
    | Token.Add n =>
      ⟨st.ins + 1, st.dp, upd st.tape st.dp ((st.tape st.dp + n) % 256),
        st.stk, st.out, st.inp, st.status⟩
    | Token.Move n =>
      let d := st.dp + n
      ⟨st.ins + 1, if d ≥ STORAGE_SIZE then d - STORAGE_SIZE else d, st.tape,
        st.stk, st.out, st.inp, st.status⟩
    | Token.Input =>
      let p := getchar st.inp
      ⟨st.ins + 1, st.dp, upd st.tape st.dp p.1, st.stk, st.out, p.2, st.status⟩
    | Token.Output =>
      ⟨st.ins + 1, st.dp, st.tape, st.stk, putchar st.out (st.tape st.dp),
        st.inp, st.status⟩
    | Token.OpenBr _ =>
      if st.tape st.dp = 0 then
        match scan_go s.length s st.ins t 1 with
        | some j =>
          ⟨j + 1, st.dp, st.tape, st.stk, st.out, st.inp, st.status⟩
        | none =>
          ⟨st.ins, st.dp, st.tape, st.stk, st.out, st.inp, Status.stuckBracket⟩
      else
        ⟨st.ins + 1, st.dp, st.tape, st.ins :: st.stk, st.out, st.inp, st.status⟩
    | Token.CloseBr _ =>
      if st.tape st.dp ≠ 0 then
        match st.stk with
        | [] => ⟨st.ins, st.dp, st.tape, st.stk, st.out, st.inp, Status.stuckBracket⟩
        | top :: _ =>
          ⟨top + 1, st.dp, st.tape, st.stk, st.out, st.inp, st.status⟩
      else
        ⟨st.ins + 1, st.dp, st.tape, st.stk.tail, st.out, st.inp, st.status⟩
    | Token.ClearCell =>
      ⟨st.ins, st.dp, st.tape, st.stk, st.out, st.inp, Status.stuckUnhandled⟩
    | Token.AddTo _ =>
      ⟨st.ins, st.dp, st.tape, st.stk, st.out, st.inp, Status.stuckUnhandled⟩
    | Token.AddToCopy _ _ =>
      ⟨st.ins, st.dp, st.tape, st.stk, st.out, st.inp, Status.stuckUnhandled⟩

/-- The initial machine state of `interpret` for a given stdin. -/
def interp_init (inp : List Nat) : InterpSt :=
  ⟨0, 0, fun _ => 0, [], [], inp, Status.running⟩

/-- `k` iterations of `interpret`'s loop from the initial state. -/
def interpret_run (s : List Token) (inp : List Nat) (k : Nat) : InterpSt :=
  (interpret_step s)^[k] (interp_init inp)

/-! ## The JIT emitter (jit.rs)

Only the observable discipline relevant to the claims is modelled: the
compile-time stack of `(inner_block, after_block)` pairs (its height),
the `stack.pop().unwrap()` at a `CloseBr` (a panic when the stack is
empty), and — as for the interpreter — the absence of match arms for
`ClearCell` / `AddTo` / `AddToCopy` (`Mov ↦ Move` as before).  Emission
happens before anything is executed, so a stuck emission means the native
function is never produced and the program produces no output at all. -/

/-- Result of running the JIT emission loop over the token stream. -/
inductive EmitResult where
  | emitted (height : Nat)
  | stuckPop
  | stuckUnhandled
deriving DecidableEq

/-- The emission loop of `jit`, tracking the block-stack height. -/
def jit_emit_go : List Token → Nat → EmitResult
  | [], h => EmitResult.emitted h
  | t :: rest, h =>
    match t with
    | Token.Add _ => jit_emit_go rest h
    | Token.Move _ => jit_emit_go rest h
    | Token.Input => jit_emit_go rest h
    | Token.Output => jit_emit_go rest h
    | Token.OpenBr _ => jit_emit_go rest (h + 1)
    | Token.CloseBr _ =>
      match h with
      | 0 => EmitResult.stuckPop
      | h2 + 1 => jit_emit_go rest h2
    | Token.ClearCell => EmitResult.stuckUnhandled
    | Token.AddTo _ => EmitResult.stuckUnhandled
    | Token.AddToCopy _ _ => EmitResult.stuckUnhandled

/-- The whole emission pass of `jit` over a token stream. -/
def jit_emit (s : List Token) : EmitResult :=
  jit_emit_go s 0

/-! ## Merge idempotence (C9) -/

/-- Is the token an `Add`? -/
def is_add : Token → Bool
  | Token.Add _ => true
  | _ => false

/-- Is the token a `Move`? -/
def is_move : Token → Bool
  | Token.Move _ => true
  | _ => false

/-- Two adjacent located tokens that `merge_adjacent` would not fold:
not both `Add` and not both `Move`. -/
def merge_blocked (a b : LTok) : Prop :=
  ¬(is_add a.1 = true ∧ is_add b.1 = true) ∧
  ¬(is_move a.1 = true ∧ is_move b.1 = true)

theorem merge_blocked_symm {a b : LTok} (h : merge_blocked a b) : merge_blocked b a :=
  ⟨fun hc => h.1 ⟨hc.2, hc.1⟩, fun hc => h.2 ⟨hc.2, hc.1⟩⟩

theorem merge_blocked_add {n m r c r2 c2 : Nat} {b : LTok}
    (h : merge_blocked (Token.Add n, r, c) b) : merge_blocked (Token.Add m, r2, c2) b :=
  ⟨fun hc => h.1 ⟨rfl, hc.2⟩, fun hc => by simp [is_move] at hc⟩

theorem merge_blocked_move {n m r c r2 c2 : Nat} {b : LTok}
    (h : merge_blocked (Token.Move n, r, c) b) : merge_blocked (Token.Move m, r2, c2) b :=
  ⟨fun hc => by simp [is_add] at hc, fun hc => h.2 ⟨rfl, hc.2⟩⟩

/-- If the head of the accumulator cannot merge with `t`, the step is a push. -/
theorem merge_step_push {a : LTok} {rest : List LTok} {t : LTok}
    (h : merge_blocked a t) : merge_step (a :: rest) t = t :: a :: rest := by
  obtain ⟨ta, ra, ca⟩ := a
  cases ta <;> cases ht : t.1 <;>
    simp_all [merge_step, is_add, is_move, merge_blocked]

/-- `merge_step` preserves the no-adjacent-mergeables chain on the
(reversed) accumulator. -/
theorem merge_step_chain {acc : List LTok} {t : LTok}
    (h : List.Chain' merge_blocked acc) :
    List.Chain' merge_blocked (merge_step acc t) := by
  obtain ⟨tt, rt, ct⟩ := t
  match acc with
  | [] => cases tt <;> simp [merge_step]
  | (ta, ra, ca) :: rest =>
    rw [List.chain'_cons'] at h
    obtain ⟨hhead, htail⟩ := h
    have hcons : List.Chain' merge_blocked ((ta, ra, ca) :: rest) :=
      List.chain'_cons'.2 ⟨hhead, htail⟩
    cases ta <;> cases tt <;>
      simp only [merge_step] <;>
      try exact List.chain'_cons.2 ⟨by simp [merge_blocked, is_add, is_move], hcons⟩
    · split
      · exact htail
      · exact List.chain'_cons'.2 ⟨fun b hb => merge_blocked_add (hhead b hb), htail⟩
    · split
      · exact htail
      · exact List.chain'_cons'.2 ⟨fun b hb => merge_blocked_move (hhead b hb), htail⟩

/-- The accumulator of `merge_adjacent` always satisfies the chain. -/
theorem merge_foldl_chain (ts : List LTok) :
    ∀ acc, List.Chain' merge_blocked acc →
      List.Chain' merge_blocked (ts.foldl merge_step acc) := by
  induction ts with
  | nil => exact fun acc h => h
  | cons t rest ih => exact fun acc h => ih _ (merge_step_chain h)

/-- On a stream with no adjacent mergeables, the fold only pushes. -/
theorem merge_foldl_of_chain (ts : List LTok) :
    ∀ acc, List.Chain' merge_blocked ts →
      (∀ b ∈ ts.head?, ∀ a ∈ acc.head?, merge_blocked a b) →
      ts.foldl merge_step acc = ts.reverse ++ acc := by
  induction ts with
  | nil => intro acc _ _; simp
  | cons t rest ih =>
    intro acc hchain hcompat
    have hstep : merge_step acc t = t :: acc := by
      match acc with
      | [] => obtain ⟨tt, rt, ct⟩ := t; cases tt <;> simp [merge_step]
      | a :: acc2 => exact merge_step_push (hcompat t rfl a rfl)
    rw [List.foldl_cons, hstep,
      ih (t :: acc) (List.chain'_cons'.1 hchain).2
        (fun b hb a ha => by
          rw [Option.mem_def, List.head?_cons, Option.some_inj] at ha
          exact ha ▸ (List.chain'_cons'.1 hchain).1 b hb)]
    simp

/-- C9: the adjacency-merge pass is idempotent — applying
`merge_adjacent` twice to any sequence of located tokens produces the
same sequence as applying it once. -/
theorem claim_C9_merge_adjacent_idempotent (ts : List LTok) :
    merge_adjacent (merge_adjacent ts) = merge_adjacent ts := by
  have hchain : List.Chain' merge_blocked (merge_adjacent ts) := by
    rw [merge_adjacent, List.chain'_reverse]
    exact (merge_foldl_chain ts [] List.chain'_nil).imp
      fun a b h => merge_blocked_symm h
  rw [merge_adjacent, merge_foldl_of_chain _ [] hchain (by simp)]
  simp

/-! ## Bracket counting

`depthL s` is the number of `OpenBr` minus the number of `CloseBr` in
`s`; a stream is balanced when every prefix has nonnegative depth and the
total depth is zero.  This is the declarative property that
`check_loops` certifies and that the optimization passes preserve. -/

/-- Signed bracket count of a token list. -/
def depthL (s : List Token) : Int :=
  (s.map br_adj).sum

/-- Every prefix has at least as many `OpenBr` as `CloseBr`. -/
def PrefixNonneg (s : List Token) : Prop :=
  ∀ n, 0 ≤ depthL (s.take n)

/-- Balanced brackets, by counting. -/
def Balanced (s : List Token) : Prop :=
  PrefixNonneg s ∧ depthL s = 0

theorem depthL_nil : depthL [] = 0 := rfl

theorem depthL_cons (t : Token) (s : List Token) :
    depthL (t :: s) = br_adj t + depthL s := by
  simp [depthL]

theorem depthL_append (a b : List Token) :
    depthL (a ++ b) = depthL a + depthL b := by
  simp [depthL]

theorem depthL_take_succ {s : List Token} {q : Nat} {t : Token}
    (h : s[q]? = some t) :
    depthL (s.take (q + 1)) = depthL (s.take q) + br_adj t := by
  rw [List.take_succ, h]
  simp [depthL_append, depthL]

theorem depthL_zero_of_all {s : List Token} (h : ∀ x ∈ s, br_adj x = 0) :
    depthL s = 0 := by
  refine List.sum_eq_zero ?_
  intro x hx
  obtain ⟨t, ht, rfl⟩ := List.mem_map.1 hx
  exact h t ht

/-- `check_loops_go` succeeding means: relative to the current stack
height, every prefix stays nonnegative and the total is zero. -/
theorem check_loops_go_bal :
    ∀ (rest : List LTok) (stk : List (Nat × Nat)),
      check_loops_go rest stk = .ok () →
      (∀ n, 0 ≤ (stk.length : Int) + depthL ((rest.map Prod.fst).take n)) ∧
      (stk.length : Int) + depthL (rest.map Prod.fst) = 0 := by
  intro rest
  induction rest with
  | nil =>
    intro stk h
    match stk with
    | [] => simp [depthL]
    | (r, c) :: stk2 => simp [check_loops_go] at h
  | cons p rest2 ih =>
    obtain ⟨t, r, c⟩ := p
    intro stk h
    cases t with
    | OpenBr d =>
      have h2 := ih ((r, c) :: stk) h
      constructor
      · intro n
        match n with
        | 0 => simp only [List.take_zero, depthL_nil, add_zero]; omega
        | n + 1 =>
          have := h2.1 n
          simp only [List.map_cons, List.take_succ_cons, depthL_cons, List.length_cons] at *
          simp only [br_adj]
          push_cast at *
          omega
      · have := h2.2
        simp only [List.map_cons, depthL_cons, List.length_cons, br_adj] at *
        push_cast at *
        omega
    | CloseBr d =>
      match stk with
      | [] => simp [check_loops_go] at h
      | l :: stk2 =>
        have h2 := ih stk2 h
        constructor
        · intro n
          match n with
          | 0 => simp only [List.take_zero, depthL_nil, add_zero]; omega
          | n + 1 =>
            have := h2.1 n
            simp only [List.map_cons, List.take_succ_cons, depthL_cons, List.length_cons] at *
            simp only [br_adj]
            push_cast at *
            omega
        · have := h2.2
          simp only [List.map_cons, depthL_cons, List.length_cons, br_adj] at *
          push_cast at *
          omega
    | Add m =>
      have h2 := ih stk h
      refine ⟨fun n => ?_, ?_⟩
      · match n with
        | 0 => simp only [List.take_zero, depthL_nil, add_zero]; omega
        | n + 1 =>
          have := h2.1 n
          simp only [List.map_cons, List.take_succ_cons, depthL_cons, br_adj] at *
          omega
      · have := h2.2
        simp only [List.map_cons, depthL_cons, br_adj] at *
        omega
    | Move m =>
      have h2 := ih stk h
      refine ⟨fun n => ?_, ?_⟩
      · match n with
        | 0 => simp only [List.take_zero, depthL_nil, add_zero]; omega
        | n + 1 =>
          have := h2.1 n
          simp only [List.map_cons, List.take_succ_cons, depthL_cons, br_adj] at *
          omega
      · have := h2.2
        simp only [List.map_cons, depthL_cons, br_adj] at *
        omega
    | Input =>
      have h2 := ih stk h
      refine ⟨fun n => ?_, ?_⟩
      · match n with
        | 0 => simp only [List.take_zero, depthL_nil, add_zero]; omega
        | n + 1 =>
          have := h2.1 n
          simp only [List.map_cons, List.take_succ_cons, depthL_cons, br_adj] at *
          omega
      · have := h2.2
        simp only [List.map_cons, depthL_cons, br_adj] at *
        omega
    | Output =>
      have h2 := ih stk h
      refine ⟨fun n => ?_, ?_⟩
      · match n with
        | 0 => simp only [List.take_zero, depthL_nil, add_zero]; omega
        | n + 1 =>
          have := h2.1 n
          simp only [List.map_cons, List.take_succ_cons, depthL_cons, br_adj] at *
          omega
      · have := h2.2
        simp only [List.map_cons, depthL_cons, br_adj] at *
        omega
    | ClearCell =>
      have h2 := ih stk h
      refine ⟨fun n => ?_, ?_⟩
      · match n with
        | 0 => simp only [List.take_zero, depthL_nil, add_zero]; omega
        | n + 1 =>
          have := h2.1 n
          simp only [List.map_cons, List.take_succ_cons, depthL_cons, br_adj] at *
          omega
      · have := h2.2
        simp only [List.map_cons, depthL_cons, br_adj] at *
        omega
    | AddTo d =>
      have h2 := ih stk h
      refine ⟨fun n => ?_, ?_⟩
      · match n with
        | 0 => simp only [List.take_zero, depthL_nil, add_zero]; omega
        | n + 1 =>
          have := h2.1 n
          simp only [List.map_cons, List.take_succ_cons, depthL_cons, br_adj] at *
          omega
      · have := h2.2
        simp only [List.map_cons, depthL_cons, br_adj] at *
        omega
    | AddToCopy d1 d2 =>
      have h2 := ih stk h
      refine ⟨fun n => ?_, ?_⟩
      · match n with
        | 0 => simp only [List.take_zero, depthL_nil, add_zero]; omega
        | n + 1 =>
          have := h2.1 n
          simp only [List.map_cons, List.take_succ_cons, depthL_cons, br_adj] at *
          omega
      · have := h2.2
        simp only [List.map_cons, depthL_cons, br_adj] at *
        omega

/-- A stream that passes `check_loops` is balanced. -/
theorem balanced_of_check_loops {lts : List LTok}
    (h : check_loops lts = .ok ()) : Balanced (lts.map Prod.fst) := by
  have h2 := check_loops_go_bal lts [] h
  refine ⟨fun n => ?_, ?_⟩
  · have := h2.1 n
    simpa using this
  · simpa using h2.2

/-! ## Window decomposition of the index-based rewrites -/

theorem drop_cons_of_get {ts : List LTok} {i : Nat} {p : LTok}
    (h : ts[i]? = some p) : ts.drop i = p :: ts.drop (i + 1) := by
  obtain ⟨hlt, hget⟩ := List.getElem?_eq_some.1 h
  rw [List.drop_eq_getElem_cons hlt, hget]

theorem window3 {ts : List LTok} {i : Nat} {p0 p1 p2 : LTok}
    (h0 : ts[i]? = some p0) (h1 : ts[i + 1]? = some p1) (h2 : ts[i + 2]? = some p2) :
    ts = ts.take i ++ p0 :: p1 :: p2 :: ts.drop (i + 3) := by
  conv_lhs => rw [← List.take_append_drop i ts]
  rw [drop_cons_of_get h0, drop_cons_of_get h1, drop_cons_of_get h2]

theorem window6 {ts : List LTok} {i : Nat} {p0 p1 p2 p3 p4 p5 : LTok}
    (h0 : ts[i]? = some p0) (h1 : ts[i + 1]? = some p1) (h2 : ts[i + 2]? = some p2)
    (h3 : ts[i + 3]? = some p3) (h4 : ts[i + 4]? = some p4) (h5 : ts[i + 5]? = some p5) :
    ts = ts.take i ++ p0 :: p1 :: p2 :: p3 :: p4 :: p5 :: ts.drop (i + 6) := by
  conv_lhs => rw [← List.take_append_drop i ts]
  rw [drop_cons_of_get h0, drop_cons_of_get h1, drop_cons_of_get h2,
    drop_cons_of_get h3, drop_cons_of_get h4, drop_cons_of_get h5]

theorem window8 {ts : List LTok} {i : Nat} {p0 p1 p2 p3 p4 p5 p6 p7 : LTok}
    (h0 : ts[i]? = some p0) (h1 : ts[i + 1]? = some p1) (h2 : ts[i + 2]? = some p2)
    (h3 : ts[i + 3]? = some p3) (h4 : ts[i + 4]? = some p4) (h5 : ts[i + 5]? = some p5)
    (h6 : ts[i + 6]? = some p6) (h7 : ts[i + 7]? = some p7) :
    ts = ts.take i ++ p0 :: p1 :: p2 :: p3 :: p4 :: p5 :: p6 :: p7 :: ts.drop (i + 8) := by
  conv_lhs => rw [← List.take_append_drop i ts]
  rw [drop_cons_of_get h0, drop_cons_of_get h1, drop_cons_of_get h2,
    drop_cons_of_get h3, drop_cons_of_get h4, drop_cons_of_get h5,
    drop_cons_of_get h6, drop_cons_of_get h7]

/-- Every rewrite of the three pattern passes has the form
`set the opening slot, drain the rest of the window`: it maps
`take i ++ window ++ drop (i+w)` to `take i ++ [replacement] ++ drop (i+w)`,
the replacement keeping the location of slot `i`. -/
theorem replace_window_eq :
    ∀ (ts : List LTok) (i : Nat) (w : Nat) (v t0 : Token) (r c : Nat),
      1 ≤ w → ts[i]? = some (t0, r, c) →
      erase_range (set_tok ts i v) (i + 1) (i + w) =
        ts.take i ++ (v, r, c) :: ts.drop (i + w) := by
  intro ts
  induction ts with
  | nil => intro i w v t0 r c hw h; simp at h
  | cons p rest ih =>
    intro i w v t0 r c hw h
    match i with
    | 0 =>
      simp only [List.getElem?_cons_zero, Option.some.injEq] at h
      subst h
      match w, hw with
      | w + 1, _ =>
        simp [set_tok, erase_range, List.take_zero, List.drop_succ_cons]
    | i + 1 =>
      simp only [List.getElem?_cons_succ] at h
      have hstep : set_tok (p :: rest) (i + 1) v = p :: set_tok rest i v := by
        simp only [set_tok, List.getElem?_cons_succ]
        cases hr : rest[i]? with
        | none => rfl
        | some q => simp [List.set]
      have harr : i + 1 + w = (i + w) + 1 := by omega
      rw [hstep, erase_range, harr]
      simp only [List.take_succ_cons, List.drop_succ_cons, List.take_succ_cons]
      rw [List.cons_append]
      have := ih i w v t0 r c hw h
      rw [erase_range] at this
      rw [this]
      simp

theorem zero_adj_take {M : List Token} (h : ∀ x ∈ M, br_adj x = 0) (k : Nat) :
    depthL (M.take k) = 0 :=
  depthL_zero_of_all fun x hx => h x (List.take_subset _ _ hx)

/-- The splice law: removing a bracket pair whose interior is
bracket-free, and substituting bracket-free material, preserves
balancedness. -/
theorem balanced_splice {A M M2 B : List Token} {o cl : Token}
    (ho : br_adj o = 1) (hc : br_adj cl = -1)
    (hm : ∀ x ∈ M, br_adj x = 0) (hm2 : ∀ x ∈ M2, br_adj x = 0)
    (h : Balanced (A ++ o :: (M ++ cl :: B))) :
    Balanced (A ++ M2 ++ B) := by
  have hMz : depthL M = 0 := depthL_zero_of_all hm
  have hM2z : depthL M2 = 0 := depthL_zero_of_all hm2
  obtain ⟨hpre, htot⟩ := h
  constructor
  · intro n
    rw [List.append_assoc, List.take_append_eq_append_take,
      List.take_append_eq_append_take, depthL_append, depthL_append,
      zero_adj_take hm2]
    by_cases hn : n ≤ A.length
    · have h1 : n - A.length = 0 := by omega
      have h2 := hpre n
      rw [List.take_append_eq_append_take, h1, List.take_zero,
        depthL_append, depthL_nil] at h2
      rw [h1, Nat.zero_sub, List.take_zero, depthL_nil]
      omega
    · have hA : A.take n = A := List.take_of_length_le (by omega)
      have h2 := hpre (A.length + (1 + (M.length + (1 + (n - A.length - M2.length)))))
      have hkey : (A ++ o :: (M ++ cl :: B)).take
          (A.length + (1 + (M.length + (1 + (n - A.length - M2.length))))) =
          A ++ o :: (M ++ cl :: B.take (n - A.length - M2.length)) := by
        rw [List.take_append, Nat.add_comm 1 (M.length + (1 + (n - A.length - M2.length))),
          List.take_succ_cons, List.take_append,
          Nat.add_comm 1 (n - A.length - M2.length), List.take_succ_cons]
      rw [hkey, depthL_append, depthL_cons, depthL_append, depthL_cons,
        ho, hc, hMz] at h2
      rw [hA]
      omega
  · rw [depthL_append, depthL_append, hM2z]
    rw [depthL_append, depthL_cons, depthL_append, depthL_cons, ho, hc, hMz] at htot
    omega

/-! ## Stream invariants preserved by the passes -/

/-- Move payloads lie in `[1, STORAGE_SIZE − 1]`. -/
def MB (t : Token) : Prop :=
  ∀ n, t = Token.Move n → 1 ≤ n ∧ n < STORAGE_SIZE

/-- The invariant carried through the optimization passes: the bracket
structure is balanced and every `Move` payload is in range. -/
def GoodS (ts : List LTok) : Prop :=
  Balanced (ts.map Prod.fst) ∧ ∀ p ∈ ts, MB p.1

theorem MB_of_adj_zero {t : Token} (h : is_move t = false) : MB t := by
  intro n hn
  subst hn
  simp [is_move] at h

/-- The generic window rewrite of the passes preserves the invariant
(3-windows: the clear-cell triple and every absorb step). -/
theorem good_replace3 {ts : List LTok} {i : Nat} {v t0 t1 t2 : Token}
    {r0 c0 r1 c1 r2 c2 : Nat}
    (h0 : ts[i]? = some (t0, r0, c0)) (h1 : ts[i + 1]? = some (t1, r1, c1))
    (h2 : ts[i + 2]? = some (t2, r2, c2))
    (ho : br_adj t0 = 1) (hm : br_adj t1 = 0) (hc : br_adj t2 = -1)
    (hv : br_adj v = 0) (hmv : MB v)
    (hg : GoodS ts) :
    GoodS (erase_range (set_tok ts i v) (i + 1) (i + 3)) := by
  rw [replace_window_eq ts i 3 v t0 r0 c0 (by omega) h0]
  constructor
  · have hb := hg.1
    rw [window3 h0 h1 h2] at hb
    simp only [List.map_append, List.map_cons] at hb
    have hsp := @balanced_splice ((ts.take i).map Prod.fst) [t1] [v]
      ((ts.drop (i + 3)).map Prod.fst) t0 t2 ho hc
      (by intro x hx; rw [List.mem_singleton] at hx; subst hx; exact hm)
      (by intro x hx; rw [List.mem_singleton] at hx; subst hx; exact hv)
      (by simpa using hb)
    simpa using hsp
  · intro p hp
    rcases List.mem_append.1 hp with hA | hB
    · exact hg.2 p (List.take_subset _ _ hA)
    · rcases List.mem_cons.1 hB with rfl | hB2
      · exact hmv
      · exact hg.2 p (List.drop_subset _ _ hB2)

/-- Same for the 6-window of `add_to`. -/
theorem good_replace6 {ts : List LTok} {i : Nat} {v t0 t1 t2 t3 t4 t5 : Token}
    {r0 c0 r1 c1 r2 c2 r3 c3 r4 c4 r5 c5 : Nat}
    (h0 : ts[i]? = some (t0, r0, c0)) (h1 : ts[i + 1]? = some (t1, r1, c1))
    (h2 : ts[i + 2]? = some (t2, r2, c2)) (h3 : ts[i + 3]? = some (t3, r3, c3))
    (h4 : ts[i + 4]? = some (t4, r4, c4)) (h5 : ts[i + 5]? = some (t5, r5, c5))
    (ho : br_adj t0 = 1)
    (hm1 : br_adj t1 = 0) (hm2 : br_adj t2 = 0) (hm3 : br_adj t3 = 0)
    (hm4 : br_adj t4 = 0) (hc : br_adj t5 = -1)
    (hv : br_adj v = 0) (hmv : MB v)
    (hg : GoodS ts) :
    GoodS (erase_range (set_tok ts i v) (i + 1) (i + 6)) := by
  rw [replace_window_eq ts i 6 v t0 r0 c0 (by omega) h0]
  constructor
  · have hb := hg.1
    rw [window6 h0 h1 h2 h3 h4 h5] at hb
    simp only [List.map_append, List.map_cons] at hb
    have hsp := @balanced_splice ((ts.take i).map Prod.fst)
      [t1, t2, t3, t4] [v]
      ((ts.drop (i + 6)).map Prod.fst) t0 t5 ho hc
      (by
        intro x hx
        simp only [List.mem_cons, List.not_mem_nil, or_false] at hx
        rcases hx with rfl | rfl | rfl | rfl
        · exact hm1
        · exact hm2
        · exact hm3
        · exact hm4)
      (by intro x hx; rw [List.mem_singleton] at hx; subst hx; exact hv)
      (by simpa using hb)
    simpa using hsp
  · intro p hp
    rcases List.mem_append.1 hp with hA | hB
    · exact hg.2 p (List.take_subset _ _ hA)
    · rcases List.mem_cons.1 hB with rfl | hB2
      · exact hmv
      · exact hg.2 p (List.drop_subset _ _ hB2)

/-- Same for the 8-window of `add_to_copy`. -/
theorem good_replace8 {ts : List LTok} {i : Nat} {v t0 t1 t2 t3 t4 t5 t6 t7 : Token}
    {r0 c0 r1 c1 r2 c2 r3 c3 r4 c4 r5 c5 r6 c6 r7 c7 : Nat}
    (h0 : ts[i]? = some (t0, r0, c0)) (h1 : ts[i + 1]? = some (t1, r1, c1))
    (h2 : ts[i + 2]? = some (t2, r2, c2)) (h3 : ts[i + 3]? = some (t3, r3, c3))
    (h4 : ts[i + 4]? = some (t4, r4, c4)) (h5 : ts[i + 5]? = some (t5, r5, c5))
    (h6 : ts[i + 6]? = some (t6, r6, c6)) (h7 : ts[i + 7]? = some (t7, r7, c7))
    (ho : br_adj t0 = 1)
    (hm1 : br_adj t1 = 0) (hm2 : br_adj t2 = 0) (hm3 : br_adj t3 = 0)
    (hm4 : br_adj t4 = 0) (hm5 : br_adj t5 = 0) (hm6 : br_adj t6 = 0)
    (hc : br_adj t7 = -1)
    (hv : br_adj v = 0) (hmv : MB v)
    (hg : GoodS ts) :
    GoodS (erase_range (set_tok ts i v) (i + 1) (i + 8)) := by
  rw [replace_window_eq ts i 8 v t0 r0 c0 (by omega) h0]
  constructor
  · have hb := hg.1
    rw [window8 h0 h1 h2 h3 h4 h5 h6 h7] at hb
    simp only [List.map_append, List.map_cons] at hb
    have hsp := @balanced_splice ((ts.take i).map Prod.fst)
      [t1, t2, t3, t4, t5, t6] [v]
      ((ts.drop (i + 8)).map Prod.fst) t0 t7 ho hc
      (by
        intro x hx
        simp only [List.mem_cons, List.not_mem_nil, or_false] at hx
        rcases hx with rfl | rfl | rfl | rfl | rfl | rfl
        · exact hm1
        · exact hm2
        · exact hm3
        · exact hm4
        · exact hm5
        · exact hm6)
      (by intro x hx; rw [List.mem_singleton] at hx; subst hx; exact hv)
      (by simpa using hb)
    simpa using hsp
  · intro p hp
    rcases List.mem_append.1 hp with hA | hB
    · exact hg.2 p (List.take_subset _ _ hA)
    · rcases List.mem_cons.1 hB with rfl | hB2
      · exact hmv
      · exact hg.2 p (List.drop_subset _ _ hB2)

/-- After the window rewrite, slot `i` of the result holds the written
token (with slot `i`'s old location). -/
theorem replace_get_i {ts : List LTok} {i w : Nat} {v t0 : Token} {r0 c0 : Nat}
    (hw : 1 ≤ w) (h0 : ts[i]? = some (t0, r0, c0)) :
    (erase_range (set_tok ts i v) (i + 1) (i + w))[i]? = some (v, r0, c0) := by
  rw [replace_window_eq ts i w v t0 r0 c0 hw h0]
  have hlt : i < ts.length := (List.getElem?_eq_some.1 h0).1
  have hlen : (ts.take i).length = i := by simp [List.length_take]; omega
  rw [List.getElem?_append_right (by omega), hlen, Nat.sub_self]
  simp

/-! ## The invariant survives each pass -/

theorem clear_cell_absorb_good (ts : List LTok) (ri : Nat) :
    GoodS ts → (∀ p, ts[ri]? = some p → br_adj p.1 = 0) →
    GoodS (clear_cell_absorb ts ri).1 := by
  induction ts, ri using clear_cell_absorb.induct with
  | case1 ts =>
    intro hg _
    simpa [clear_cell_absorb] using hg
  | case2 ts i hlen =>
    intro hg _
    rw [clear_cell_absorb, if_pos hlen]
    exact hg
  | case3 ts i hlen jmp r0 c0 jmp2 r2 c2 hc2 h0 ih =>
    intro hg hmid
    have hlt2 : i + 2 < ts.length := (List.getElem?_eq_some.1 hc2).1
    obtain ⟨⟨t1, r1, c1⟩, h1⟩ : ∃ p, ts[i + 1]? = some p :=
      ⟨_, @List.getElem?_eq_getElem _ ts (i + 1) (by omega)⟩
    have hm1 : br_adj t1 = 0 := hmid _ h1
    have heq : clear_cell_absorb ts (i + 1) =
        clear_cell_absorb (erase_range (set_tok ts i Token.ClearCell) (i + 1) (i + 3)) i := by
      rw [clear_cell_absorb, if_neg hlen, h0, hc2]
    rw [heq]
    apply ih
    · exact good_replace3 h0 h1 hc2 rfl hm1 rfl rfl (MB_of_adj_zero rfl) hg
    · intro p hp
      rw [replace_get_i (by omega) h0] at hp
      obtain rfl : p = (Token.ClearCell, r0, c0) := by simpa using hp.symm
      rfl
  | case4 ts i hlen hno =>
    intro hg _
    have heq : clear_cell_absorb ts (i + 1) = (ts, i + 1) := by
      rw [clear_cell_absorb, if_neg hlen]
      cases h0 : ts[i]? with
      | none => rfl
      | some p0 =>
        obtain ⟨t0, r0, c0⟩ := p0
        cases h2 : ts[i + 2]? with
        | none => cases t0 <;> rfl
        | some p2 =>
          obtain ⟨t2, r2, c2⟩ := p2
          cases t0 <;> cases t2 <;> try rfl
          exact (hno _ _ _ _ _ _ h0 h2).elim
    rw [heq]
    exact hg

theorem clear_cell_step_good (ts : List LTok) (i : Nat) (hg : GoodS ts) :
    GoodS (clear_cell_step ts i).1 := by
  rw [clear_cell_step]
  split
  · exact hg
  · split
    · next jmp r0 c0 n r1 c1 jmp2 r2 c2 h0 h1 h2 =>
      apply clear_cell_absorb_good
      · exact good_replace3 h0 h1 h2 rfl rfl rfl rfl (MB_of_adj_zero rfl) hg
      · intro p hp
        rw [replace_get_i (by omega) h0] at hp
        obtain rfl : p = (Token.ClearCell, r0, c0) := by simpa using hp.symm
        rfl
    · exact hg

theorem clear_cell_go_good (fuel : Nat) (ts : List LTok) (i : Nat) (hg : GoodS ts) :
    GoodS (clear_cell_go fuel ts i) := by
  induction fuel, ts, i using clear_cell_go.induct with
  | case1 t ts => simpa [clear_cell_go] using hg
  | case2 ts n => simpa [clear_cell_go] using hg
  | case3 fuel ts i p ih =>
    rw [clear_cell_go]
    exact ih (clear_cell_step_good ts i hg)

theorem clear_cell_good {ts : List LTok} (hg : GoodS ts) : GoodS (clear_cell ts) :=
  clear_cell_go_good _ _ _ hg

theorem add_to_absorb_good (ts : List LTok) (ri : Nat) :
    GoodS ts → (∀ p, ts[ri]? = some p → br_adj p.1 = 0) →
    GoodS (add_to_absorb ts ri).1 := by
  induction ts, ri using add_to_absorb.induct with
  | case1 ts =>
    intro hg _
    simpa [add_to_absorb] using hg
  | case2 ts i hlen =>
    intro hg _
    rw [add_to_absorb, if_pos hlen]
    exact hg
  | case3 ts i hlen jmp r0 c0 jmp2 r2 c2 hc2 h0 tk r1 c1 h1 ih =>
    intro hg hmid
    have hm1 : br_adj tk = 0 := hmid _ h1
    have heq : add_to_absorb ts (i + 1) =
        add_to_absorb (erase_range (set_tok ts i tk) (i + 1) (i + 3)) i := by
      rw [add_to_absorb, if_neg hlen, h0, hc2, h1]
    rw [heq]
    apply ih
    · exact good_replace3 h0 h1 hc2 rfl hm1 rfl hm1
        (hg.2 _ (List.getElem?_mem h1)) hg
    · intro p hp
      rw [replace_get_i (by omega) h0] at hp
      obtain rfl : p = (tk, r0, c0) := by simpa using hp.symm
      exact hm1
  | case4 ts i hlen jmp r0 c0 jmp2 r2 c2 hc2 h0 hnone =>
    intro hg _
    have hlt2 : i + 2 < ts.length := (List.getElem?_eq_some.1 hc2).1
    have h1 := @List.getElem?_eq_getElem _ ts (i + 1) (by omega)
    rw [hnone] at h1
    cases h1
  | case5 ts i hlen hno =>
    intro hg _
    have heq : add_to_absorb ts (i + 1) = (ts, i + 1) := by
      rw [add_to_absorb, if_neg hlen]
      cases h0 : ts[i]? with
      | none => rfl
      | some p0 =>
        obtain ⟨t0, r0, c0⟩ := p0
        cases h2 : ts[i + 2]? with
        | none => cases t0 <;> rfl
        | some p2 =>
          obtain ⟨t2, r2, c2⟩ := p2
          cases t0 <;> cases t2 <;> try rfl
          exact (hno _ _ _ _ _ _ h0 h2).elim
    rw [heq]
    exact hg

theorem add_to_step_good (ts : List LTok) (i : Nat) (hg : GoodS ts) :
    GoodS (add_to_step ts i).1 := by
  rw [add_to_step]
  split
  · exact hg
  · split
    · next jmp r0 c0 r1 c1 m1 r2 c2 r3 c3 m2 r4 c4 jmp2 r5 c5 h0 h1 h2 h3 h4 h5 =>
      split
      · apply add_to_absorb_good
        · exact good_replace6 h0 h1 h2 h3 h4 h5 rfl rfl rfl rfl rfl rfl rfl
            (MB_of_adj_zero rfl) hg
        · intro p hp
          rw [replace_get_i (by omega) h0] at hp
          obtain rfl : p = (Token.AddTo m1, r0, c0) := by simpa using hp.symm
          rfl
      · exact hg
    · exact hg

theorem add_to_go_good (fuel : Nat) (ts : List LTok) (i : Nat) (hg : GoodS ts) :
    GoodS (add_to_go fuel ts i) := by
  induction fuel, ts, i using add_to_go.induct with
  | case1 t ts => simpa [add_to_go] using hg
  | case2 ts n => simpa [add_to_go] using hg
  | case3 fuel ts i p ih =>
    rw [add_to_go]
    exact ih (add_to_step_good ts i hg)

theorem add_to_good {ts : List LTok} (hg : GoodS ts) : GoodS (add_to ts) :=
  add_to_go_good _ _ _ hg

theorem add_to_copy_step_good (ts : List LTok) (i : Nat) (hg : GoodS ts) :
    GoodS (add_to_copy_step ts i).1 := by
  rw [add_to_copy_step]
  split
  · exact hg
  · split
    · next jmp r0 c0 r1 c1 m1 r2 c2 r3 c3 m2 r4 c4 r5 c5 m3 r6 c6 jmp2 r7 c7
        h0 h1 h2 h3 h4 h5 h6 h7 =>
      split
      · apply add_to_absorb_good
        · exact good_replace8 h0 h1 h2 h3 h4 h5 h6 h7 rfl rfl rfl rfl rfl rfl rfl rfl rfl
            (MB_of_adj_zero rfl) hg
        · intro p hp
          rw [replace_get_i (by omega) h0] at hp
          obtain rfl : p = (Token.AddToCopy m1 ((m1 + m2) % STORAGE_SIZE), r0, c0) := by
            simpa using hp.symm
          rfl
      · exact hg
    · exact hg

theorem add_to_copy_go_good (fuel : Nat) (ts : List LTok) (i : Nat) (hg : GoodS ts) :
    GoodS (add_to_copy_go fuel ts i) := by
  induction fuel, ts, i using add_to_copy_go.induct with
  | case1 t ts => simpa [add_to_copy_go] using hg
  | case2 ts n => simpa [add_to_copy_go] using hg
  | case3 fuel ts i p ih =>
    rw [add_to_copy_go]
    exact ih (add_to_copy_step_good ts i hg)

theorem add_to_copy_good {ts : List LTok} (hg : GoodS ts) : GoodS (add_to_copy ts) :=
  add_to_copy_go_good _ _ _ hg

/-! ## calculate_jumps: totality, symmetry, invariant preservation -/

theorem get_set_tok_same {ts : List LTok} {i : Nat} {v : Token} {p : LTok}
    (h : ts[i]? = some p) : (set_tok ts i v)[i]? = some (v, p.2.1, p.2.2) := by
  rw [set_tok, h]
  exact List.getElem?_set_self (List.getElem?_eq_some.1 h).1

theorem get_set_tok_other {ts : List LTok} {i x : Nat} {v : Token}
    (hne : i ≠ x) : (set_tok ts i v)[x]? = ts[x]? := by
  rw [set_tok]
  cases h : ts[i]? with
  | none => rfl
  | some p => exact List.getElem?_set_ne hne

theorem length_set_tok (ts : List LTok) (i : Nat) (v : Token) :
    (set_tok ts i v).length = ts.length := by
  rw [set_tok]
  cases h : ts[i]? <;> simp

theorem mb_set_tok {ts : List LTok} {i : Nat} {v : Token}
    (hmb : ∀ p ∈ ts, MB p.1) (hv : MB v) : ∀ p ∈ set_tok ts i v, MB p.1 := by
  rw [set_tok]
  cases h : ts[i]? with
  | none => exact hmb
  | some q =>
    intro p hp
    rcases List.mem_or_eq_of_mem_set hp with h1 | rfl
    · exact hmb _ h1
    · exact hv

/-- The bracket profile of a located stream. -/
def prof (ts : List LTok) : List Int :=
  ts.map fun p => br_adj p.1

theorem prof_set_tok {ts : List LTok} {i : Nat} {v : Token} {p : LTok}
    (h : ts[i]? = some p) (hadj : br_adj v = br_adj p.1) :
    prof (set_tok ts i v) = prof ts := by
  rw [set_tok, h]
  show (ts.set i (v, p.2.1, p.2.2)).map _ = _
  rw [List.map_set]
  apply List.ext_getElem?
  intro m
  rw [List.getElem?_set]
  split
  · next heq =>
    subst heq
    rw [if_pos (by rw [List.length_map]; exact (List.getElem?_eq_some.1 h).1)]
    show _ = (prof ts)[i]?
    rw [prof, List.getElem?_map, h]
    simp [hadj]
  · rfl

theorem depthL_prof (ts : List LTok) : depthL (ts.map Prod.fst) = (prof ts).sum := by
  rw [depthL, List.map_map, prof]
  rfl

theorem depthL_take_prof (ts : List LTok) (n : Nat) :
    depthL ((ts.map Prod.fst).take n) = ((prof ts).take n).sum := by
  rw [depthL, ← List.map_take, List.map_map, prof, ← List.map_take]
  rfl

theorem balanced_of_prof {ts ts2 : List LTok} (hp : prof ts2 = prof ts)
    (hb : Balanced (ts.map Prod.fst)) : Balanced (ts2.map Prod.fst) := by
  constructor
  · intro n
    rw [depthL_take_prof, hp, ← depthL_take_prof]
    exact hb.1 n
  · rw [depthL_prof, hp, ← depthL_prof]
    exact hb.2

theorem prof_take_succ {ts : List LTok} {i : Nat} {p : LTok} (h : ts[i]? = some p) :
    ((prof ts).take (i + 1)).sum = ((prof ts).take i).sum + br_adj p.1 := by
  have h2 : (prof ts)[i]? = some (br_adj p.1) := by
    rw [prof, List.getElem?_map, h]
    rfl
  rw [List.take_succ, h2]
  simp

/-- Final bracket symmetry, with locations still attached. -/
def SymL (r : List LTok) : Prop :=
  (∀ o d p, r[o]? = some p → p.1 = Token.OpenBr d →
    1 ≤ d ∧ ∃ p2, r[o + d]? = some p2 ∧ p2.1 = Token.CloseBr d) ∧
  (∀ j d p, r[j]? = some p → p.1 = Token.CloseBr d →
    1 ≤ d ∧ d ≤ j ∧ ∃ p2, r[j - d]? = some p2 ∧ p2.1 = Token.OpenBr d)

/-- At the end of the scan (all indices processed) the stack is empty and
the settled-region facts become the symmetry property. -/
theorem calc_terminal {ts : List LTok} {i : Nat} {stk : List Nat}
    (hterm : ts.length ≤ i)
    (Hbal : Balanced (ts.map Prod.fst))
    (Hdepth : (stk.length : Int) = ((prof ts).take i).sum)
    (Hopen : ∀ o d p, o < i → o ∉ stk → ts[o]? = some p → p.1 = Token.OpenBr d →
      1 ≤ d ∧ o + d < i ∧ ∃ p2, ts[o + d]? = some p2 ∧ p2.1 = Token.CloseBr d)
    (Hclose : ∀ j d p, j < i → ts[j]? = some p → p.1 = Token.CloseBr d →
      1 ≤ d ∧ d ≤ j ∧ (j - d) ∉ stk ∧ ∃ p2, ts[j - d]? = some p2 ∧ p2.1 = Token.OpenBr d) :
    SymL ts := by
  have hplen : (prof ts).length = ts.length := by rw [prof, List.length_map]
  have hstk : stk = [] := by
    have h1 : ((prof ts).take i).sum = (prof ts).sum := by
      rw [List.take_of_length_le (by omega)]
    have h2 : (prof ts).sum = 0 := by
      rw [← depthL_prof]
      exact Hbal.2
    have h3 : stk.length = 0 := by
      have := Hdepth
      rw [h1, h2] at this
      exact_mod_cast this
    exact List.length_eq_zero.1 h3
  subst hstk
  constructor
  · intro o d p hp hpt
    have ho : o < i := lt_of_lt_of_le (List.getElem?_eq_some.1 hp).1 hterm
    have h := Hopen o d p ho (by simp) hp hpt
    exact ⟨h.1, h.2.2⟩
  · intro j d p hp hpt
    have hj : j < i := lt_of_lt_of_le (List.getElem?_eq_some.1 hp).1 hterm
    have h := Hclose j d p hj hp hpt
    exact ⟨h.1, h.2.1, h.2.2.2⟩

theorem calc_go_succ (fuel : Nat) (ts : List LTok) (i : Nat) (stk : List Nat) :
    calculate_jumps_go (fuel + 1) ts i stk =
      match ts[i]?, stk with
      | none, _ => some ts
      | some (Token.OpenBr _, _, _), _ => calculate_jumps_go fuel ts (i + 1) (i :: stk)
      | some (Token.CloseBr _, _, _), [] => none
      | some (Token.CloseBr _, _, _), o :: stk2 =>
        calculate_jumps_go fuel
          (set_tok (set_tok ts o (Token.OpenBr (i - o))) i (Token.CloseBr (i - o)))
          (i + 1) stk2
      | some _, _ => calculate_jumps_go fuel ts (i + 1) stk := rfl

/-- The main invariant induction over `calculate_jumps_go`: the scan
never pops an empty stack, and the result carries symmetric jump
distances, the bracket profile, and the Move-payload bounds. -/
theorem calc_go_spec (fuel : Nat) (ts : List LTok) (i : Nat) (stk : List Nat) :
    ts.length ≤ fuel + i →
    Balanced (ts.map Prod.fst) →
    (∀ p ∈ ts, MB p.1) →
    List.Pairwise (fun a b => b < a) stk →
    (∀ o ∈ stk, o < i ∧ ∃ p, ts[o]? = some p ∧ ∃ d0, p.1 = Token.OpenBr d0) →
    ((stk.length : Int) = ((prof ts).take i).sum) →
    (∀ o d p, o < i → o ∉ stk → ts[o]? = some p → p.1 = Token.OpenBr d →
      1 ≤ d ∧ o + d < i ∧ ∃ p2, ts[o + d]? = some p2 ∧ p2.1 = Token.CloseBr d) →
    (∀ j d p, j < i → ts[j]? = some p → p.1 = Token.CloseBr d →
      1 ≤ d ∧ d ≤ j ∧ (j - d) ∉ stk ∧ ∃ p2, ts[j - d]? = some p2 ∧ p2.1 = Token.OpenBr d) →
    ∃ r, calculate_jumps_go fuel ts i stk = some r ∧ r.length = ts.length ∧
      prof r = prof ts ∧ (∀ p ∈ r, MB p.1) ∧ SymL r := by
  induction fuel, ts, i, stk using calculate_jumps_go.induct with
  | case1 ts i stk =>
    intro Hfuel Hbal Hmb _ _ Hdepth Hopen Hclose
    exact ⟨ts, rfl, rfl, rfl, Hmb,
      calc_terminal (by omega) Hbal Hdepth Hopen Hclose⟩
  | case2 fuel ts i stk hnone =>
    intro Hfuel Hbal Hmb _ _ Hdepth Hopen Hclose
    have hterm : ts.length ≤ i := List.getElem?_eq_none_iff.1 hnone
    refine ⟨ts, ?_, rfl, rfl, Hmb, calc_terminal hterm Hbal Hdepth Hopen Hclose⟩
    rw [calc_go_succ, hnone]
  | case3 fuel ts i stk jmp r0 c0 hget ih =>
    intro Hfuel Hbal Hmb Hpw Hstk Hdepth Hopen Hclose
    have hi_lt : i < ts.length := (List.getElem?_eq_some.1 hget).1
    have heq : calculate_jumps_go (fuel + 1) ts i stk =
        calculate_jumps_go fuel ts (i + 1) (i :: stk) := by
      rw [calc_go_succ, hget]
    rw [heq]
    apply ih
    · omega
    · exact Hbal
    · exact Hmb
    · exact List.pairwise_cons.2 ⟨fun b hb => (Hstk b hb).1, Hpw⟩
    · intro o ho
      rcases List.mem_cons.1 ho with rfl | ho2
      · exact ⟨by omega, ⟨(Token.OpenBr jmp, r0, c0), hget, jmp, rfl⟩⟩
      · obtain ⟨h1, h2⟩ := Hstk o ho2
        exact ⟨by omega, h2⟩
    · rw [prof_take_succ hget]
      simp only [List.length_cons, br_adj]
      push_cast
      omega
    · intro o d p ho hnotin hgetp hpt
      have hne_i : o ≠ i := fun h => by
        subst h
        rw [hget] at hgetp
        cases hgetp
        exact hnotin (List.mem_cons_self _ _)
      have h := Hopen o d p (by omega) (fun hm => hnotin (List.mem_cons_of_mem _ hm)) hgetp hpt
      exact ⟨h.1, by omega, h.2.2⟩
    · intro j d p hj hgetp hpt
      have hne_i : j ≠ i := fun h => by
        subst h
        rw [hget] at hgetp
        cases hgetp
        simp at hpt
      have h := Hclose j d p (by omega) hgetp hpt
      refine ⟨h.1, h.2.1, ?_, h.2.2.2⟩
      intro hm
      rcases List.mem_cons.1 hm with heq2 | hm2
      · omega
      · exact h.2.2.1 hm2
  | case4 fuel ts i jmp r0 c0 hget =>
    intro Hfuel Hbal Hmb Hpw Hstk Hdepth Hopen Hclose
    exfalso
    have h1 : ((prof ts).take (i + 1)).sum = ((prof ts).take i).sum + (-1) := by
      rw [prof_take_succ hget]
      rfl
    have h2 : (0 : Int) ≤ ((prof ts).take (i + 1)).sum := by
      rw [← depthL_take_prof]
      exact Hbal.1 (i + 1)
    simp only [List.length_nil, Nat.cast_zero] at Hdepth
    omega
  | case5 fuel ts i jmp r0 c0 o stk2 hget ih =>
    intro Hfuel Hbal Hmb Hpw Hstk Hdepth Hopen Hclose
    have hi_lt : i < ts.length := (List.getElem?_eq_some.1 hget).1
    obtain ⟨ho_lt, po, hpo, d0, hpo1⟩ := Hstk o (List.mem_cons_self o stk2)
    have hone : o ≠ i := by omega
    have hd1 : 1 ≤ i - o := by omega
    have hstk2_lt : ∀ x ∈ stk2, x < o := fun x hx => (List.pairwise_cons.1 Hpw).1 x hx
    -- the rewritten list
    have hget1_o : (set_tok ts o (Token.OpenBr (i - o)))[o]? =
        some (Token.OpenBr (i - o), po.2.1, po.2.2) := get_set_tok_same hpo
    have hget1_i : (set_tok ts o (Token.OpenBr (i - o)))[i]? =
        some (Token.CloseBr jmp, r0, c0) := by
      rw [get_set_tok_other hone]
      exact hget
    have hget2_i :
        (set_tok (set_tok ts o (Token.OpenBr (i - o))) i (Token.CloseBr (i - o)))[i]? =
        some (Token.CloseBr (i - o), r0, c0) := get_set_tok_same hget1_i
    have hget2_o :
        (set_tok (set_tok ts o (Token.OpenBr (i - o))) i (Token.CloseBr (i - o)))[o]? =
        some (Token.OpenBr (i - o), po.2.1, po.2.2) := by
      rw [get_set_tok_other (Ne.symm hone)]
      exact hget1_o
    have hget2_other : ∀ x, x ≠ o → x ≠ i →
        (set_tok (set_tok ts o (Token.OpenBr (i - o))) i (Token.CloseBr (i - o)))[x]? =
        ts[x]? := by
      intro x hxo hxi
      rw [get_set_tok_other (Ne.symm hxi), get_set_tok_other (Ne.symm hxo)]
    have hpa : prof (set_tok ts o (Token.OpenBr (i - o))) = prof ts :=
      prof_set_tok hpo (by rw [hpo1]; rfl)
    have hpb :
        prof (set_tok (set_tok ts o (Token.OpenBr (i - o))) i (Token.CloseBr (i - o))) =
        prof (set_tok ts o (Token.OpenBr (i - o))) :=
      prof_set_tok hget1_i rfl
    have hprof2 :
        prof (set_tok (set_tok ts o (Token.OpenBr (i - o))) i (Token.CloseBr (i - o))) =
        prof ts := by
      rw [hpb, hpa]
    have hlen2 :
        (set_tok (set_tok ts o (Token.OpenBr (i - o))) i (Token.CloseBr (i - o))).length =
        ts.length := by
      rw [length_set_tok, length_set_tok]
    have heq : calculate_jumps_go (fuel + 1) ts i (o :: stk2) =
        calculate_jumps_go fuel
          (set_tok (set_tok ts o (Token.OpenBr (i - o))) i (Token.CloseBr (i - o)))
          (i + 1) stk2 := by
      rw [calc_go_succ, hget]
    rw [heq]
    obtain ⟨r, hr, hrlen, hrprof, hrmb, hrsym⟩ := ih
      (by rw [hlen2]; omega)
      (balanced_of_prof hprof2 Hbal)
      (mb_set_tok (mb_set_tok Hmb (by intro n hn; cases hn)) (by intro n hn; cases hn))
      ((List.pairwise_cons.1 Hpw).2)
      (by
        intro x hx
        have hxo : x < o := hstk2_lt x hx
        obtain ⟨h1, p, hp, hd⟩ := Hstk x (List.mem_cons_of_mem _ hx)
        exact ⟨by omega, p, by rw [hget2_other x (by omega) (by omega)]; exact hp, hd⟩)
      (by
        rw [hprof2, prof_take_succ hget]
        simp only [List.length_cons, Nat.cast_succ] at Hdepth
        simp only [br_adj]
        omega)
      (by
        intro o2 d2 p2 ho2 hnotin hgetp hpt
        by_cases heqo : o2 = o
        · subst heqo
          rw [hget2_o] at hgetp
          cases hgetp
          simp only at hpt
          cases hpt
          refine ⟨hd1, by omega, (Token.CloseBr (i - o2), r0, c0), ?_, rfl⟩
          rw [show o2 + (i - o2) = i by omega]
          exact hget2_i
        · have hnei : o2 ≠ i := fun h => by
            subst h
            rw [hget2_i] at hgetp
            cases hgetp
            simp at hpt
          rw [hget2_other o2 heqo hnei] at hgetp
          have h := Hopen o2 d2 p2 (by omega)
            (fun hm => by
              rcases List.mem_cons.1 hm with h5 | h5
              · exact heqo h5
              · exact hnotin h5) hgetp hpt
          obtain ⟨hd2, hlt2, q2, hq2, hq2t⟩ := h
          have hne5 : o2 + d2 ≠ o := by
            intro heq5
            rw [heq5, hpo] at hq2
            cases hq2
            rw [hpo1] at hq2t
            cases hq2t
          refine ⟨hd2, by omega, q2, ?_, hq2t⟩
          rw [hget2_other (o2 + d2) hne5 (by omega)]
          exact hq2
      )
      (by
        intro j d2 p2 hj hgetp hpt
        by_cases heqj : j = i
        · subst heqj
          rw [hget2_i] at hgetp
          cases hgetp
          simp only at hpt
          cases hpt
          refine ⟨hd1, by omega, ?_, (Token.OpenBr (j - o), po.2.1, po.2.2), ?_, rfl⟩
          · rw [show j - (j - o) = o by omega]
            intro hm
            exact absurd (hstk2_lt o hm) (by omega)
          · rw [show j - (j - o) = o by omega]
            exact hget2_o
        · have hjlt : j < i := by omega
          have hnej_o : j ≠ o := fun h => by
            subst h
            rw [hget2_o] at hgetp
            cases hgetp
            simp at hpt
          rw [hget2_other j hnej_o heqj] at hgetp
          have h := Hclose j d2 p2 hjlt hgetp hpt
          obtain ⟨hd2, hdj, hnm, q2, hq2, hq2t⟩ := h
          have hjd_ne_o : j - d2 ≠ o := fun h5 => hnm (h5 ▸ List.mem_cons_self o stk2)
          refine ⟨hd2, hdj, fun hm => hnm (List.mem_cons_of_mem _ hm), q2, ?_, hq2t⟩
          rw [hget2_other (j - d2) hjd_ne_o (by omega)]
          exact hq2
      )
    refine ⟨r, hr, by rw [hrlen, hlen2], by rw [hrprof, hprof2], hrmb, hrsym⟩
  | case6 fuel ts i stk val hnopen hget hnclose1 hnclose2 ih =>
    intro Hfuel Hbal Hmb Hpw Hstk Hdepth Hopen Hclose
    obtain ⟨t, r0, c0⟩ := val
    have hnot_open : ∀ jmp, t = Token.OpenBr jmp → False := fun jmp h =>
      hnopen jmp r0 c0 (by rw [h])
    have hnot_close : ∀ jmp, t = Token.CloseBr jmp → False := by
      intro jmp h
      match stk with
      | [] => exact hnclose1 jmp r0 c0 (by rw [h]) rfl
      | o :: stk2 => exact hnclose2 jmp r0 c0 o stk2 (by rw [h]) rfl
    have hadj0 : br_adj t = 0 := by
      cases t
      case OpenBr jmp => exact (hnot_open jmp rfl).elim
      case CloseBr jmp => exact (hnot_close jmp rfl).elim
      all_goals rfl
    have heq : calculate_jumps_go (fuel + 1) ts i stk =
        calculate_jumps_go fuel ts (i + 1) stk := by
      rw [calc_go_succ, hget]
      cases t
      case OpenBr jmp => exact (hnot_open jmp rfl).elim
      case CloseBr jmp => exact (hnot_close jmp rfl).elim
      all_goals
        cases stk <;> rfl
    rw [heq]
    apply ih
    · omega
    · exact Hbal
    · exact Hmb
    · exact Hpw
    · intro x hx
      obtain ⟨h1, h2⟩ := Hstk x hx
      exact ⟨by omega, h2⟩
    · rw [prof_take_succ hget]
      show _ = _ + br_adj t
      rw [hadj0, add_zero]
      exact Hdepth
    · intro o d p ho hnotin hgetp hpt
      have hne_i : o ≠ i := fun h => by
        subst h
        rw [hget] at hgetp
        cases hgetp
        exact hnot_open d hpt
      have h := Hopen o d p (by omega) hnotin hgetp hpt
      exact ⟨h.1, by omega, h.2.2⟩
    · intro j d p hj hgetp hpt
      have hne_i : j ≠ i := fun h => by
        subst h
        rw [hget] at hgetp
        cases hgetp
        exact hnot_close d hpt
      exact Hclose j d p (by omega) hgetp hpt

/-! ## The invariant holds for the front half of the pipeline -/

theorem char_token_mb {ch : Char} {t : Token} (h : char_token ch = some t) : MB t := by
  rw [char_token] at h
  split_ifs at h <;> cases h <;> intro n hn <;> cases hn <;> decide

theorem lex_mb (code : String) : ∀ p ∈ lex code, MB p.1 := by
  intro p hp
  rw [lex] at hp
  simp only [List.mem_flatMap] at hp
  obtain ⟨il, _, hp2⟩ := hp
  rw [lex_line] at hp2
  simp only [List.mem_filterMap] at hp2
  obtain ⟨jc, _, hmap⟩ := hp2
  cases hct : char_token jc.2 with
  | none => rw [hct] at hmap; cases hmap
  | some t =>
    rw [hct] at hmap
    cases hmap
    exact char_token_mb hct

/-- Every element the merge step produces is an old element, the incoming
token, some `Add`, or a reduced nonzero `Move`. -/
theorem merge_step_cases (acc : List LTok) (t : LTok) :
    ∀ p ∈ merge_step acc t, p ∈ acc ∨ p = t ∨
      (∃ k r c, p = (Token.Add k, r, c)) ∨
      (∃ k r c, k ≠ 0 ∧ k < STORAGE_SIZE ∧ p = (Token.Move k, r, c)) := by
  obtain ⟨tt, rt, ct⟩ := t
  match acc with
  | [] =>
    intro p hp
    cases tt <;>
      (simp only [merge_step, List.mem_singleton] at hp; exact Or.inr (Or.inl hp))
  | (ta, ra, ca) :: rest =>
    intro p hp
    cases ta <;> cases tt <;>
      simp only [merge_step] at hp <;>
      try (rcases List.mem_cons.1 hp with rfl | h2
           · exact Or.inr (Or.inl rfl)
           · exact Or.inl h2)
    · split at hp
      · exact Or.inl (List.mem_cons_of_mem _ hp)
      · rcases List.mem_cons.1 hp with rfl | h2
        · exact Or.inr (Or.inr (Or.inl ⟨_, _, _, rfl⟩))
        · exact Or.inl (List.mem_cons_of_mem _ h2)
    · split at hp
      · exact Or.inl (List.mem_cons_of_mem _ hp)
      · rcases List.mem_cons.1 hp with rfl | h2
        · exact Or.inr (Or.inr (Or.inr
            ⟨_, _, _, by assumption, Nat.mod_lt _ (by decide), rfl⟩))
        · exact Or.inl (List.mem_cons_of_mem _ h2)

theorem merge_adjacent_mb {ts : List LTok} (h : ∀ p ∈ ts, MB p.1) :
    ∀ p ∈ merge_adjacent ts, MB p.1 := by
  suffices hS : ∀ (l acc : List LTok), (∀ p ∈ l, MB p.1) → (∀ p ∈ acc, MB p.1) →
      ∀ p ∈ l.foldl merge_step acc, MB p.1 by
    intro p hp
    rw [merge_adjacent, List.mem_reverse] at hp
    exact hS ts [] h (by simp) p hp
  intro l
  induction l with
  | nil => intro acc _ hacc; exact hacc
  | cons x xs ih =>
    intro acc hl hacc
    refine ih _ (fun p hp => hl p (List.mem_cons_of_mem _ hp)) ?_
    intro p hp
    rcases merge_step_cases acc x p hp with h1 | rfl | ⟨k, r, c, rfl⟩ | ⟨k, r, c, hk0, hks, rfl⟩
    · exact hacc p h1
    · exact hl p (List.mem_cons_self _ _)
    · intro n hn; cases hn
    · intro n hn
      cases hn
      omega

/-- The whole invariant package for `process_code`'s successful results. -/
theorem process_code_props {code : String} {out : List Token}
    (h : process_code code = some (.ok out)) :
    Balanced out ∧ (∀ t ∈ out, MB t) ∧
    (∀ i d, out[i]? = some (Token.OpenBr d) →
      1 ≤ d ∧ out[i + d]? = some (Token.CloseBr d)) ∧
    (∀ j d, out[j]? = some (Token.CloseBr d) →
      1 ≤ d ∧ d ≤ j ∧ out[j - d]? = some (Token.OpenBr d)) := by
  rw [process_code] at h
  rcases hc : check_loops (merge_adjacent (lex code)) with e | u
  · rw [hc] at h
    cases h
  · rw [hc] at h
    have hg0 : GoodS (merge_adjacent (lex code)) :=
      ⟨balanced_of_check_loops hc, merge_adjacent_mb (lex_mb code)⟩
    have hg3 : GoodS (add_to_copy (add_to (clear_cell (merge_adjacent (lex code))))) :=
      add_to_copy_good (add_to_good (clear_cell_good hg0))
    obtain ⟨r, hr, hrlen, hrprof, hrmb, hrsym⟩ :=
      calc_go_spec (add_to_copy (add_to (clear_cell (merge_adjacent (lex code))))).length
        (add_to_copy (add_to (clear_cell (merge_adjacent (lex code))))) 0 []
        (by omega) hg3.1 hg3.2 List.Pairwise.nil (by simp)
        (by simp [prof]) (by intro o d p ho; omega) (by intro j d p hj; omega)
    have hj : calculate_jumps (add_to_copy (add_to (clear_cell (merge_adjacent (lex code))))) =
        some r := hr
    rw [hj] at h
    cases h
    refine ⟨balanced_of_prof hrprof hg3.1, ?_, ?_, ?_⟩
    · intro t ht
      obtain ⟨p, hp, rfl⟩ := List.mem_map.1 ht
      exact hrmb p hp
    · intro i d hget
      rw [List.getElem?_map] at hget
      obtain ⟨p, hp, hpt⟩ := Option.map_eq_some'.1 hget
      obtain ⟨hd, p2, hp2, hp2t⟩ := hrsym.1 i d p hp hpt
      refine ⟨hd, ?_⟩
      simp [List.getElem?_map, hp2, hp2t]
    · intro j d hget
      rw [List.getElem?_map] at hget
      obtain ⟨p, hp, hpt⟩ := Option.map_eq_some'.1 hget
      obtain ⟨hd, hdj, p2, hp2, hp2t⟩ := hrsym.2 j d p hp hpt
      refine ⟨hd, hdj, ?_⟩
      simp [List.getElem?_map, hp2, hp2t]

/-! ## Concrete claim theorems -/

/-- C3: `process_code` applied to the source string `<<--[-[>++<,.-]]`
returns `Ok` of exactly the thirteen-token stream `[Move(29998),
Add(254), OpenBr(10), Add(255), OpenBr(7), Move(1), Add(2), Move(29999),
Input, Output, Add(255), CloseBr(7), CloseBr(10)]` (`TAPE = 30000`, so
`Move(29998) = Move(TAPE−2)` and `Move(29999) = Move(TAPE−1)`). -/
theorem claim_C3_process_code_example :
    process_code "<<--[-[>++<,.-]]" =
      some (Except.ok
        [Token.Move 29998, Token.Add 254, Token.OpenBr 10, Token.Add 255,
         Token.OpenBr 7, Token.Move 1, Token.Add 2, Token.Move 29999,
         Token.Input, Token.Output, Token.Add 255, Token.CloseBr 7,
         Token.CloseBr 10]) := rfl

/-- C1 (code bug): the claim says the interpreter implements the
reference semantics of §4.4, dispatching `ClearCell` (cell ← 0), `AddTo`
and `AddToCopy`.  The interpreter in the crate has no match arm for any
of these opcodes (its `match` covers only `Add`, `Mov`, `Input`,
`Output`, payload-less `OpenBr`/`CloseBr`, against a `Token` enum that
defines none of those bracket shapes and no `Mov` at all), so on the
stream `[ClearCell]` — which `process_code` produces from the source
`[-]` — the very first dispatch has no arm instead of zeroing the cell
and terminating. -/
theorem claim_C1_code_bug_clear_cell_unhandled :
    process_code "[-]" = some (Except.ok [Token.ClearCell]) ∧
    (interpret_run [Token.ClearCell] [] 1).status = Status.stuckUnhandled :=
  ⟨rfl, rfl⟩

/-- C2 (code bug): the claim says interpreter and JIT produce identical
output byte streams on every finalized program.  On the stream
`[Output, ClearCell]` — produced by `process_code` from the source
`.[-]` — the interpreter emits the byte 0 and only then reaches the
unhandled `ClearCell`, while the JIT emission pass (which runs before any
native code executes) reaches the unhandled `ClearCell` at compile time,
so no native function is ever produced and the JIT side emits no output
at all. -/
theorem claim_C2_code_bug_engines_disagree :
    process_code ".[-]" = some (Except.ok [Token.Output, Token.ClearCell]) ∧
    (interpret_run [Token.Output, Token.ClearCell] [] 2).out = [0] ∧
    (interpret_run [Token.Output, Token.ClearCell] [] 2).status = Status.stuckUnhandled ∧
    jit_emit [Token.Output, Token.ClearCell] = EmitResult.stuckUnhandled :=
  ⟨rfl, rfl, rfl, rfl⟩

/-- C5: bracket symmetry of finalized streams — in every stream returned
by `process_code`, an `OpenBr d` at index `i` is matched by `CloseBr d`
at index `i + d`, and a `CloseBr d` at index `j` has `d ≤ j` and is
matched by `OpenBr d` at index `j - d`. -/
theorem claim_C5_bracket_symmetry {code : String} {out : List Token}
    (h : process_code code = some (Except.ok out)) :
    (∀ i d, out[i]? = some (Token.OpenBr d) →
      out[i + d]? = some (Token.CloseBr d)) ∧
    (∀ j d, out[j]? = some (Token.CloseBr d) →
      d ≤ j ∧ out[j - d]? = some (Token.OpenBr d)) := by
  obtain ⟨-, -, h1, h2⟩ := process_code_props h
  exact ⟨fun i d hg => (h1 i d hg).2,
    fun j d hg => ⟨(h2 j d hg).2.1, (h2 j d hg).2.2⟩⟩

/-- Witness for C5 at the stream finalized from `<<--[-[>++<,.-]]`:
the `OpenBr 10` at index 2 is matched by `CloseBr 10` at index 12, and
conversely. -/
theorem claim_C5_bracket_symmetry_witness :
    ([Token.Move 29998, Token.Add 254, Token.OpenBr 10, Token.Add 255,
      Token.OpenBr 7, Token.Move 1, Token.Add 2, Token.Move 29999,
      Token.Input, Token.Output, Token.Add 255, Token.CloseBr 7,
      Token.CloseBr 10][2 + 10]? = some (Token.CloseBr 10)) ∧
    (10 ≤ 12 ∧
     [Token.Move 29998, Token.Add 254, Token.OpenBr 10, Token.Add 255,
      Token.OpenBr 7, Token.Move 1, Token.Add 2, Token.Move 29999,
      Token.Input, Token.Output, Token.Add 255, Token.CloseBr 7,
      Token.CloseBr 10][12 - 10]? = some (Token.OpenBr 10)) :=
  ⟨(claim_C5_bracket_symmetry (@rfl _ (process_code "<<--[-[>++<,.-]]"))).1 2 10 rfl,
   (claim_C5_bracket_symmetry (@rfl _ (process_code "<<--[-[>++<,.-]]"))).2 12 10 rfl⟩

/-! ## C4: pointer wrap law -/

/-- A single interpreter step preserves `dp < STORAGE_SIZE` when every
`Move` payload of the stream is below `STORAGE_SIZE`. -/
theorem interpret_step_dp {s : List Token} (hmb : ∀ t ∈ s, MB t)
    {st : InterpSt} (hdp : st.dp < STORAGE_SIZE) :
    (interpret_step s st).dp < STORAGE_SIZE := by
  rw [interpret_step]
  split
  · exact hdp
  split
  · exact hdp
  rename_i t hget
  split
  · exact hdp
  · rename_i n
    have hbn := hmb _ (List.getElem?_mem hget) n rfl
    show (if st.dp + n ≥ STORAGE_SIZE then st.dp + n - STORAGE_SIZE
          else st.dp + n) < STORAGE_SIZE
    split <;> omega
  · exact hdp
  · exact hdp
  · split
    · split <;> exact hdp
    · exact hdp
  · split
    · split <;> exact hdp
    · exact hdp
  · exact hdp
  · exact hdp
  · exact hdp

/-- The data pointer stays below `STORAGE_SIZE` along every execution
prefix, for any stream whose `Move` payloads are below `STORAGE_SIZE`. -/
theorem interp_run_dp {s : List Token} (hmb : ∀ t ∈ s, MB t)
    (inp : List Nat) (k : Nat) :
    (interpret_run s inp k).dp < STORAGE_SIZE := by
  induction k with
  | zero =>
    show (interp_init inp).dp < STORAGE_SIZE
    simp [interp_init, STORAGE_SIZE]
  | succ k ih =>
    rw [interpret_run, Function.iterate_succ_apply']
    exact interpret_step_dp hmb ih

/-- C4: pointer wrap law — for every finalized program, every `Move`
payload lies in `[1, STORAGE_SIZE − 1]`; the data pointer of the
interpreter satisfies `dp < STORAGE_SIZE` after any number of steps on
any input; and under those bounds the interpreter's add-then-conditional-
subtract pointer update coincides with addition modulo `STORAGE_SIZE`. -/
theorem claim_C4_pointer_wrap {code : String} {out : List Token}
    (h : process_code code = some (Except.ok out)) :
    (∀ n, Token.Move n ∈ out → 1 ≤ n ∧ n ≤ STORAGE_SIZE - 1) ∧
    (∀ inp k, (interpret_run out inp k).dp < STORAGE_SIZE) ∧
    (∀ dp n, dp < STORAGE_SIZE → 1 ≤ n → n ≤ STORAGE_SIZE - 1 →
      (if dp + n ≥ STORAGE_SIZE then dp + n - STORAGE_SIZE else dp + n)
        = (dp + n) % STORAGE_SIZE) := by
  obtain ⟨-, hmb, -, -⟩ := process_code_props h
  refine ⟨fun n hn => ?_, fun inp k => interp_run_dp hmb inp k,
    fun dp n h1 h2 h3 => ?_⟩
  · have h4 := hmb _ hn n rfl
    omega
  · simp only [STORAGE_SIZE] at h1 h2 h3 ⊢
    split <;> omega

/-- Witness for C4 at the stream finalized from `<<--[-[>++<,.-]]`:
its `Move 29998` payload is in range, the data pointer after five steps
on empty input is in range, and the conditional-subtract update agrees
with the modulus at `dp = 29999`, `n = 29998`. -/
theorem claim_C4_pointer_wrap_witness :
    (1 ≤ 29998 ∧ 29998 ≤ STORAGE_SIZE - 1) ∧
    (interpret_run
      [Token.Move 29998, Token.Add 254, Token.OpenBr 10, Token.Add 255,
       Token.OpenBr 7, Token.Move 1, Token.Add 2, Token.Move 29999,
       Token.Input, Token.Output, Token.Add 255, Token.CloseBr 7,
       Token.CloseBr 10] [] 5).dp < STORAGE_SIZE ∧
    ((if 29999 + 29998 ≥ STORAGE_SIZE then 29999 + 29998 - STORAGE_SIZE
      else 29999 + 29998) = (29999 + 29998) % STORAGE_SIZE) :=
  ⟨(claim_C4_pointer_wrap (@rfl _ (process_code "<<--[-[>++<,.-]]"))).1
      29998 (by decide),
   (claim_C4_pointer_wrap (@rfl _ (process_code "<<--[-[>++<,.-]]"))).2.1 [] 5,
   (claim_C4_pointer_wrap (@rfl _ (process_code "<<--[-[>++<,.-]]"))).2.2
      29999 29998 (by decide) (by decide) (by decide)⟩

/-! ## C10: no partial operation is ever hit on validated streams -/

/-- Manual unfolding of one scan step. -/
theorem scan_go_succ (fuel : Nat) (s : List Token) (q : Nat) (t : Token)
    (n : Int) :
    scan_go (fuel + 1) s q t n =
      if is_close t ∧ n = 0 then some q
      else
        match s[q + 1]? with
        | none => none
        | some t2 => scan_go fuel s (q + 1) t2 (n + br_adj t2) := rfl

/-- Totality and correctness of the interpreter's forward scan: inside a
balanced stream, starting from a position whose successor-prefix depth
exceeds the nonnegative base depth `D` by the nesting counter `n`, the
scan never runs off the end and lands on a position whose
successor-prefix depth returns to `D`. -/
theorem scan_go_total {s : List Token} (Hpre : PrefixNonneg s)
    (Hzero : depthL s = 0) (D : Int) (HD : 0 ≤ D) :
    ∀ fuel q t n, s.length ≤ fuel + q → s[q]? = some t →
      n = depthL (s.take (q + 1)) - D →
      (1 ≤ n ∨ (is_close t = true ∧ n = 0)) →
      ∃ j, scan_go fuel s q t n = some j ∧ q ≤ j ∧
        depthL (s.take (j + 1)) = D := by
  intro fuel
  induction fuel with
  | zero =>
    intro q t n hfuel hget _ _
    have hq : q < s.length := by
      by_contra hcon
      push_neg at hcon
      rw [List.getElem?_eq_none hcon] at hget
      cases hget
    omega
  | succ fuel ih =>
    intro q t n hfuel hget hn hdisj
    rw [scan_go_succ]
    by_cases hstop : is_close t = true ∧ n = 0
    · rw [if_pos hstop]
      exact ⟨q, rfl, le_refl q, by omega⟩
    · rw [if_neg hstop]
      have h1n : 1 ≤ n := by
        rcases hdisj with h1 | h2
        · exact h1
        · exact absurd h2 hstop
      cases hget2 : s[q + 1]? with
      | none =>
        exfalso
        have hlen : s.length ≤ q + 1 := by
          by_contra hcon
          push_neg at hcon
          rw [List.getElem?_eq_getElem hcon] at hget2
          cases hget2
        have htake : s.take (q + 1) = s := List.take_of_length_le hlen
        rw [htake, Hzero] at hn
        omega
      | some t2 =>
        obtain ⟨j, hj, hqj, hdj⟩ :=
          ih (q + 1) t2 (n + br_adj t2) (by omega) hget2
            (by rw [depthL_take_succ hget2]; omega)
            (by
              cases t2 with
              | CloseBr d =>
                by_cases hz : n + br_adj (Token.CloseBr d) = 0
                · exact Or.inr ⟨rfl, hz⟩
                · left
                  simp only [br_adj] at hz ⊢
                  omega
              | OpenBr d => left; simp only [br_adj]; omega
              | Add m => left; simp only [br_adj]; omega
              | Move m => left; simp only [br_adj]; omega
              | Input => left; simp only [br_adj]; omega
              | Output => left; simp only [br_adj]; omega
              | ClearCell => left; simp only [br_adj]; omega
              | AddTo d => left; simp only [br_adj]; omega
              | AddToCopy d1 d2 => left; simp only [br_adj]; omega)
        exact ⟨j, hj, by omega, hdj⟩

/-- The run-time invariant of the interpreter on a balanced stream: the
machine is never stuck on a bracket, and while running the loop-stack
height equals the bracket depth of the consumed prefix, each entry
remembering a live `OpenBr` at the depth recorded by its position. -/
def InterpInv (s : List Token) (st : InterpSt) : Prop :=
  st.status ≠ Status.stuckBracket ∧
  (st.status = Status.running →
    ((st.stk.length : Int) = depthL (s.take st.ins) ∧
     ∀ (j o : Nat), st.stk[j]? = some o →
       (∃ d, s[o]? = some (Token.OpenBr d)) ∧
       depthL (s.take (o + 1)) = (st.stk.length : Int) - j))

/-- A running status is not a bracket-stuck status. -/
theorem run_ne_stuckBracket {x : Status} (h : x = Status.running) :
    x ≠ Status.stuckBracket := by rw [h]; decide

theorem done_ne_running : Status.done = Status.running → False := by decide

theorem unhandled_ne_running :
    Status.stuckUnhandled = Status.running → False := by decide

theorem done_ne_stuckBracket : Status.done ≠ Status.stuckBracket := by decide

theorem unhandled_ne_stuckBracket :
    Status.stuckUnhandled ≠ Status.stuckBracket := by decide

/-- One interpreter step preserves the run-time invariant on a balanced
stream. -/
theorem interpret_step_inv {s : List Token} (Hbal : Balanced s)
    {st : InterpSt} (hinv : InterpInv s st) :
    InterpInv s (interpret_step s st) := by
  obtain ⟨Hpre, Hzero⟩ := Hbal
  rw [interpret_step]
  split
  · exact hinv
  rename_i hrun0
  have hrun : st.status = Status.running := not_not.mp hrun0
  obtain ⟨hne0, himp⟩ := hinv
  obtain ⟨hA, hB⟩ := himp hrun
  split
  · -- instruction pointer past the end: the machine halts
    exact ⟨done_ne_stuckBracket, fun hcon => (done_ne_running hcon).elim⟩
  rename_i t hget
  split
  · -- Add
    refine ⟨run_ne_stuckBracket hrun, fun _ => ⟨?_, ?_⟩⟩
    · show (st.stk.length : Int) = depthL (s.take (st.ins + 1))
      rw [depthL_take_succ hget]
      simp only [br_adj]
      omega
    · exact hB
  · -- Move
    refine ⟨run_ne_stuckBracket hrun, fun _ => ⟨?_, ?_⟩⟩
    · show (st.stk.length : Int) = depthL (s.take (st.ins + 1))
      rw [depthL_take_succ hget]
      simp only [br_adj]
      omega
    · exact hB
  · -- Input
    refine ⟨run_ne_stuckBracket hrun, fun _ => ⟨?_, ?_⟩⟩
    · show (st.stk.length : Int) = depthL (s.take (st.ins + 1))
      rw [depthL_take_succ hget]
      simp only [br_adj]
      omega
    · exact hB
  · -- Output
    refine ⟨run_ne_stuckBracket hrun, fun _ => ⟨?_, ?_⟩⟩
    · show (st.stk.length : Int) = depthL (s.take (st.ins + 1))
      rw [depthL_take_succ hget]
      simp only [br_adj]
      omega
    · exact hB
  · -- OpenBr
    rename_i d
    split
    · -- current cell is zero: forward scan
      have hD : (0 : Int) ≤ depthL (s.take st.ins) := Hpre st.ins
      obtain ⟨j, hj, hqj, hdj⟩ :=
        scan_go_total Hpre Hzero (depthL (s.take st.ins)) hD
          s.length st.ins (Token.OpenBr d) 1 (by omega) hget
          (by rw [depthL_take_succ hget]; simp only [br_adj]; ring)
          (Or.inl (by norm_num))
      rw [hj]
      refine ⟨run_ne_stuckBracket hrun, fun _ => ⟨?_, ?_⟩⟩
      · show (st.stk.length : Int) = depthL (s.take (j + 1))
        rw [hdj]
        exact hA
      · exact hB
    · -- current cell nonzero: push the opener
      refine ⟨run_ne_stuckBracket hrun, fun _ => ⟨?_, ?_⟩⟩
      · show ((st.ins :: st.stk).length : Int) = depthL (s.take (st.ins + 1))
        rw [depthL_take_succ hget]
        simp only [br_adj, List.length_cons]
        push_cast
        omega
      · show ∀ (j o : Nat), (st.ins :: st.stk)[j]? = some o →
          (∃ d2, s[o]? = some (Token.OpenBr d2)) ∧
          depthL (s.take (o + 1)) = (((st.ins :: st.stk).length : Nat) : Int) - j
        intro j o hj
        cases j with
        | zero =>
          rw [List.getElem?_cons_zero] at hj
          injection hj with hj2
          subst hj2
          refine ⟨⟨d, hget⟩, ?_⟩
          rw [depthL_take_succ hget]
          simp only [br_adj, List.length_cons]
          push_cast
          omega
        | succ j2 =>
          rw [List.getElem?_cons_succ] at hj
          obtain ⟨hw, hdep⟩ := hB j2 o hj
          refine ⟨hw, ?_⟩
          rw [hdep]
          simp only [List.length_cons]
          push_cast
          omega
  · -- CloseBr
    rename_i d
    have hdep1 : 1 ≤ depthL (s.take st.ins) := by
      have h1 := Hpre (st.ins + 1)
      rw [depthL_take_succ hget] at h1
      simp only [br_adj] at h1
      omega
    have hlen1 : 1 ≤ st.stk.length := by omega
    split
    · -- current cell nonzero: jump back to the opener on top of the stack
      cases hstk : st.stk with
      | nil =>
        rw [hstk] at hlen1
        simp at hlen1
      | cons top rest =>
        rw [hstk] at hA hB
        refine ⟨run_ne_stuckBracket hrun, fun _ => ⟨?_, ?_⟩⟩
        · show (((top :: rest).length : Nat) : Int) = depthL (s.take (top + 1))
          have h0 := (hB 0 top (by rw [List.getElem?_cons_zero])).2
          rw [h0]
          push_cast
          omega
        · exact hB
    · -- current cell zero: pop the opener and continue
      refine ⟨run_ne_stuckBracket hrun, fun _ => ⟨?_, ?_⟩⟩
      · show ((st.stk.tail.length : Nat) : Int) = depthL (s.take (st.ins + 1))
        rw [depthL_take_succ hget]
        simp only [br_adj, List.length_tail]
        push_cast [hlen1]
        omega
      · show ∀ (j o : Nat), st.stk.tail[j]? = some o →
          (∃ d2, s[o]? = some (Token.OpenBr d2)) ∧
          depthL (s.take (o + 1)) = ((st.stk.tail.length : Nat) : Int) - j
        intro j o hj
        rw [List.getElem?_tail] at hj
        obtain ⟨hw, hdep⟩ := hB (j + 1) o hj
        refine ⟨hw, ?_⟩
        rw [hdep]
        simp only [List.length_tail]
        push_cast [hlen1]
        omega
  · -- ClearCell
    exact ⟨unhandled_ne_stuckBracket, fun hcon => (unhandled_ne_running hcon).elim⟩
  · -- AddTo
    exact ⟨unhandled_ne_stuckBracket, fun hcon => (unhandled_ne_running hcon).elim⟩
  · -- AddToCopy
    exact ⟨unhandled_ne_stuckBracket, fun hcon => (unhandled_ne_running hcon).elim⟩

/-- The run-time invariant holds after any number of interpreter steps
from the initial state, on a balanced stream. -/
theorem interp_run_inv {s : List Token} (Hbal : Balanced s)
    (inp : List Nat) (k : Nat) :
    InterpInv s (interpret_run s inp k) := by
  induction k with
  | zero =>
    refine ⟨run_ne_stuckBracket rfl, fun _ => ⟨?_, ?_⟩⟩
    · show ((0 : Nat) : Int) = depthL (s.take 0)
      simp [depthL]
    · show ∀ (j o : Nat), ([] : List Nat)[j]? = some o → _
      intro j o hj
      simp at hj
  | succ k ih =>
    rw [interpret_run, Function.iterate_succ_apply']
    exact interpret_step_inv Hbal ih

/-- The JIT emission loop never pops an empty block stack as long as the
stack height dominates every prefix depth of the remaining stream. -/
theorem jit_emit_go_no_pop :
    ∀ (s : List Token) (h : Nat),
      (∀ n, 0 ≤ (h : Int) + depthL (s.take n)) →
      jit_emit_go s h ≠ EmitResult.stuckPop := by
  intro s
  induction s with
  | nil =>
    intro h _
    show EmitResult.emitted h ≠ EmitResult.stuckPop
    simp
  | cons t rest ih =>
    intro h hpre
    cases t with
    | Add n =>
      refine ih h fun n2 => ?_
      have h2 := hpre (n2 + 1)
      rw [List.take_succ_cons, depthL_cons] at h2
      simp only [br_adj] at h2
      omega
    | Move n =>
      refine ih h fun n2 => ?_
      have h2 := hpre (n2 + 1)
      rw [List.take_succ_cons, depthL_cons] at h2
      simp only [br_adj] at h2
      omega
    | Input =>
      refine ih h fun n2 => ?_
      have h2 := hpre (n2 + 1)
      rw [List.take_succ_cons, depthL_cons] at h2
      simp only [br_adj] at h2
      omega
    | Output =>
      refine ih h fun n2 => ?_
      have h2 := hpre (n2 + 1)
      rw [List.take_succ_cons, depthL_cons] at h2
      simp only [br_adj] at h2
      omega
    | OpenBr d =>
      refine ih (h + 1) fun n2 => ?_
      have h2 := hpre (n2 + 1)
      rw [List.take_succ_cons, depthL_cons] at h2
      simp only [br_adj] at h2
      push_cast
      omega
    | CloseBr d =>
      cases h with
      | zero =>
        exfalso
        have h2 := hpre 1
        rw [List.take_succ_cons, List.take_zero, depthL_cons, depthL_nil] at h2
        simp only [br_adj] at h2
        omega
      | succ h2 =>
        refine ih h2 fun n2 => ?_
        have h3 := hpre (n2 + 1)
        rw [List.take_succ_cons, depthL_cons] at h3
        simp only [br_adj] at h3
        push_cast at h3
        omega
    | ClearCell =>
      show EmitResult.stuckUnhandled ≠ EmitResult.stuckPop
      simp
    | AddTo d =>
      show EmitResult.stuckUnhandled ≠ EmitResult.stuckPop
      simp
    | AddToCopy d1 d2 =>
      show EmitResult.stuckUnhandled ≠ EmitResult.stuckPop
      simp

/-- C10: on every stream returned by `process_code`, no partial
operation is ever reached: the interpreter never gets stuck on a bracket
(so the loop-stack `unwrap` always finds a top and the forward scan
never indexes past the end of the stream), and the JIT emission loop
never pops an empty block stack. -/
theorem claim_C10_no_partial_ops {code : String} {out : List Token}
    (h : process_code code = some (Except.ok out)) :
    (∀ inp k, (interpret_run out inp k).status ≠ Status.stuckBracket) ∧
    jit_emit out ≠ EmitResult.stuckPop := by
  obtain ⟨hbal, -, -, -⟩ := process_code_props h
  refine ⟨fun inp k => ?_, ?_⟩
  · obtain ⟨hne, -⟩ := interp_run_inv hbal inp k
    exact hne
  rw [jit_emit]
  refine jit_emit_go_no_pop out 0 fun n => ?_
  have h2 := hbal.1 n
  push_cast
  omega

/-- Witness for C10 at the stream finalized from `<<--[-[>++<,.-]]`:
after twenty interpreter steps on empty input the machine is not stuck
on a bracket, and the JIT emission loop does not underflow its block
stack. -/
theorem claim_C10_no_partial_ops_witness :
    (interpret_run
      [Token.Move 29998, Token.Add 254, Token.OpenBr 10, Token.Add 255,
       Token.OpenBr 7, Token.Move 1, Token.Add 2, Token.Move 29999,
       Token.Input, Token.Output, Token.Add 255, Token.CloseBr 7,
       Token.CloseBr 10] [] 20).status ≠ Status.stuckBracket ∧
    jit_emit
      [Token.Move 29998, Token.Add 254, Token.OpenBr 10, Token.Add 255,
       Token.OpenBr 7, Token.Move 1, Token.Add 2, Token.Move 29999,
       Token.Input, Token.Output, Token.Add 255, Token.CloseBr 7,
       Token.CloseBr 10] ≠ EmitResult.stuckPop :=
  ⟨(claim_C10_no_partial_ops (@rfl _ (process_code "<<--[-[>++<,.-]]"))).1 [] 20,
   (claim_C10_no_partial_ops (@rfl _ (process_code "<<--[-[>++<,.-]]"))).2⟩


/-! ## C6: the ClearCell pass -/

/-- Manual unfolding of one absorb step of `clear_cell`. -/
theorem clear_cell_absorb_succ (ts : List LTok) (i : Nat) :
    clear_cell_absorb ts (i + 1) =
      if i + 1 = ts.length - 1 then (ts, i + 1)
      else
        match ts[i]?, ts[i + 2]? with
        | some (Token.OpenBr _, _, _), some (Token.CloseBr _, _, _) =>
          clear_cell_absorb
            (erase_range (set_tok ts i Token.ClearCell) (i + 1) (i + 3)) i
        | _, _ => (ts, i + 1) := rfl

/-- One absorb step of `clear_cell`: the innermost surrounding bracket
pair fuses into the `ClearCell`, which moves onto the opener's slot. -/
theorem clear_cell_absorb_step {a2 b2 : List LTok} {x : LTok}
    {dw db rw0 cw0 rb0 cb0 : Nat} :
    clear_cell_absorb
        (a2 ++ (Token.OpenBr dw, rw0, cw0) :: x
          :: (Token.CloseBr db, rb0, cb0) :: b2) (a2.length + 1) =
      clear_cell_absorb (a2 ++ (Token.ClearCell, rw0, cw0) :: b2)
        a2.length := by
  have hg1 : (a2 ++ (Token.OpenBr dw, rw0, cw0) :: x
      :: (Token.CloseBr db, rb0, cb0) :: b2)[a2.length]? =
      some (Token.OpenBr dw, rw0, cw0) := by
    rw [List.getElem?_append_right (le_refl _)]
    simp
  have hg2 : (a2 ++ (Token.OpenBr dw, rw0, cw0) :: x
      :: (Token.CloseBr db, rb0, cb0) :: b2)[a2.length + 2]? =
      some (Token.CloseBr db, rb0, cb0) := by
    rw [List.getElem?_append_right (by omega)]
    simp [Nat.add_sub_cancel_left]
  have hcond : ¬ (a2.length + 1 =
      (a2 ++ (Token.OpenBr dw, rw0, cw0) :: x
        :: (Token.CloseBr db, rb0, cb0) :: b2).length - 1) := by
    simp only [List.length_append, List.length_cons]
    omega
  rw [clear_cell_absorb_succ, if_neg hcond, hg1, hg2]
  rw [replace_window_eq _ a2.length 3 Token.ClearCell (Token.OpenBr dw)
    rw0 cw0 (by omega) hg1]
  rw [List.take_left' rfl]
  have hre : a2 ++ (Token.OpenBr dw, rw0, cw0) :: x
      :: (Token.CloseBr db, rb0, cb0) :: b2 =
      (a2 ++ [(Token.OpenBr dw, rw0, cw0), x,
        (Token.CloseBr db, rb0, cb0)]) ++ b2 := by
    simp
  rw [show (a2 ++ (Token.OpenBr dw, rw0, cw0) :: x
      :: (Token.CloseBr db, rb0, cb0) :: b2).drop (a2.length + 3) = b2 by
    rw [hre]
    exact List.drop_left' (by simp)]

/-- The absorb loop of `clear_cell` collapses any tower of matched
brackets around a `ClearCell` down to the single `ClearCell`. -/
theorem clear_cell_absorb_collapse :
    ∀ (b a : List LTok) (x : LTok),
      a.length = b.length →
      (∀ p ∈ a, ∃ d, p.1 = Token.OpenBr d) →
      (∀ p ∈ b, ∃ d, p.1 = Token.CloseBr d) →
      x.1 = Token.ClearCell →
      ∃ y : LTok, y.1 = Token.ClearCell ∧
        clear_cell_absorb (a ++ x :: b) a.length = ([y], 0) := by
  intro b
  induction b with
  | nil =>
    intro a x hlen _ _ hx
    have ha0 : a = [] := List.eq_nil_of_length_eq_zero hlen
    subst ha0
    exact ⟨x, hx, rfl⟩
  | cons b0 b2 ih =>
    intro a x hlen ha hb hx
    rcases List.eq_nil_or_concat' a with rfl | ⟨a2, w, rfl⟩
    · simp at hlen
    · obtain ⟨dw, hwd⟩ := ha w (by simp)
      obtain ⟨db, hbd⟩ := hb b0 (by simp)
      obtain ⟨tw, rw0, cw0⟩ := w
      obtain ⟨tb, rb0, cb0⟩ := b0
      simp only at hwd hbd
      subst hwd
      subst hbd
      have hL : (a2 ++ [(Token.OpenBr dw, rw0, cw0)]) ++ x
          :: (Token.CloseBr db, rb0, cb0) :: b2 =
          a2 ++ (Token.OpenBr dw, rw0, cw0) :: x
            :: (Token.CloseBr db, rb0, cb0) :: b2 := by
        simp
      have hlen2 : (a2 ++ [(Token.OpenBr dw, rw0, cw0)]).length =
          a2.length + 1 := by simp
      rw [hL, hlen2, clear_cell_absorb_step]
      have hlen3 : a2.length = b2.length := by
        simp at hlen
        omega
      exact ih a2 (Token.ClearCell, rw0, cw0) hlen3
        (fun p hp => ha p (by simp [hp]))
        (fun p hp => hb p (by simp [hp]))
        rfl

/-- Manual unfolding of one outer-loop step of `clear_cell`. -/
theorem clear_cell_go_succ (fuel : Nat) (ts : List LTok) (i : Nat) :
    clear_cell_go (fuel + 1) ts (i + 1) =
      clear_cell_go fuel (clear_cell_step ts i).1
        (clear_cell_step ts i).2 := rfl

/-- The outer loop of `clear_cell` stops at index zero. -/
theorem clear_cell_go_zero (fuel : Nat) (ts : List LTok) :
    clear_cell_go fuel ts 0 = ts := by
  cases fuel <;> rfl

/-- The outer-loop body of `clear_cell` does nothing at an index that
does not hold an `OpenBr`. -/
theorem clear_cell_step_skip {ts : List LTok} {i : Nat}
    (h : ∀ d r c, ts[i]? ≠ some (Token.OpenBr d, r, c)) :
    clear_cell_step ts i = (ts, i) := by
  rw [clear_cell_step]
  split
  · rfl
  · cases hg : ts[i]? with
    | none => rfl
    | some p =>
      obtain ⟨t0, r0, c0⟩ := p
      cases t0 with
      | OpenBr d => exact absurd hg (h d r0 c0)
      | CloseBr d => rfl
      | Add m => rfl
      | Move m => rfl
      | Input => rfl
      | Output => rfl
      | ClearCell => rfl
      | AddTo d => rfl
      | AddToCopy d1 d2 => rfl

/-- The outer loop of `clear_cell` walks over a span holding no `OpenBr`
without changing anything. -/
theorem clear_cell_go_skip :
    ∀ (k : Nat) (ts : List LTok) (i : Nat),
      (∀ j, i ≤ j → j < i + k →
        ∀ d r c, ts[j]? ≠ some (Token.OpenBr d, r, c)) →
      clear_cell_go (i + k) ts (i + k) = clear_cell_go i ts i := by
  intro k
  induction k with
  | zero => intro ts i h; rfl
  | succ k ih =>
    intro ts i h
    have harr : i + (k + 1) = (i + k) + 1 := by omega
    rw [harr, clear_cell_go_succ,
      clear_cell_step_skip (fun d r c => h (i + k) (by omega) (by omega) d r c)]
    exact ih ts i (fun j h1 h2 => h j h1 (by omega))

/-- The ClearCell family law: any `OpenBr, Add(_), CloseBr` triple
surrounded by a tower of matched brackets collapses, through the triple
rewrite and the absorb loop, to the single token `ClearCell`. -/
theorem clear_cell_family {a b : List LTok}
    {d1 d2 n r0 c0 r1 c1 r2 c2 : Nat}
    (ha : ∀ p ∈ a, ∃ d, p.1 = Token.OpenBr d)
    (hb : ∀ p ∈ b, ∃ d, p.1 = Token.CloseBr d)
    (hlen : a.length = b.length) :
    ∃ r c, clear_cell
        (a ++ (Token.OpenBr d1, r0, c0) :: (Token.Add n, r1, c1)
          :: (Token.CloseBr d2, r2, c2) :: b) =
      [(Token.ClearCell, r, c)] := by
  have hg0 : (a ++ (Token.OpenBr d1, r0, c0) :: (Token.Add n, r1, c1)
      :: (Token.CloseBr d2, r2, c2) :: b)[a.length]? =
      some (Token.OpenBr d1, r0, c0) := by
    rw [List.getElem?_append_right (le_refl _)]
    simp
  have hg1 : (a ++ (Token.OpenBr d1, r0, c0) :: (Token.Add n, r1, c1)
      :: (Token.CloseBr d2, r2, c2) :: b)[a.length + 1]? =
      some (Token.Add n, r1, c1) := by
    rw [List.getElem?_append_right (by omega)]
    simp [Nat.add_sub_cancel_left]
  have hg2 : (a ++ (Token.OpenBr d1, r0, c0) :: (Token.Add n, r1, c1)
      :: (Token.CloseBr d2, r2, c2) :: b)[a.length + 2]? =
      some (Token.CloseBr d2, r2, c2) := by
    rw [List.getElem?_append_right (by omega)]
    simp [Nat.add_sub_cancel_left]
  have hLlen : (a ++ (Token.OpenBr d1, r0, c0) :: (Token.Add n, r1, c1)
      :: (Token.CloseBr d2, r2, c2) :: b).length =
      (a.length + 1) + (a.length + 2) := by
    simp only [List.length_append, List.length_cons]
    omega
  have hnoop : ∀ j, a.length + 1 ≤ j → j < (a.length + 1) + (a.length + 2) →
      ∀ d r c, (a ++ (Token.OpenBr d1, r0, c0) :: (Token.Add n, r1, c1)
        :: (Token.CloseBr d2, r2, c2) :: b)[j]? ≠
        some (Token.OpenBr d, r, c) := by
    intro j hj1 hj2 d r c hcon
    rcases Nat.lt_or_ge j (a.length + 3) with h3 | h3
    · have : j = a.length + 1 ∨ j = a.length + 2 := by omega
      rcases this with rfl | rfl
      · rw [hg1] at hcon
        simp at hcon
      · rw [hg2] at hcon
        simp at hcon
    · rw [List.getElem?_append_right (by omega)] at hcon
      have h4 : j - a.length = (j - a.length - 3) + 3 := by omega
      rw [h4] at hcon
      simp only [List.getElem?_cons_succ] at hcon
      obtain ⟨db, hdb⟩ := hb _ (List.getElem?_mem hcon)
      simp at hdb
  have hcond : ¬ ((a ++ (Token.OpenBr d1, r0, c0) :: (Token.Add n, r1, c1)
      :: (Token.CloseBr d2, r2, c2) :: b).length - a.length < 3) := by
    simp only [List.length_append, List.length_cons]
    omega
  have hstep : clear_cell_step
      (a ++ (Token.OpenBr d1, r0, c0) :: (Token.Add n, r1, c1)
        :: (Token.CloseBr d2, r2, c2) :: b) a.length =
      clear_cell_absorb (erase_range (set_tok
        (a ++ (Token.OpenBr d1, r0, c0) :: (Token.Add n, r1, c1)
          :: (Token.CloseBr d2, r2, c2) :: b) a.length Token.ClearCell)
        (a.length + 1) (a.length + 3)) a.length := by
    rw [clear_cell_step, if_neg hcond, hg0, hg1, hg2]
  have hrep : erase_range (set_tok
      (a ++ (Token.OpenBr d1, r0, c0) :: (Token.Add n, r1, c1)
        :: (Token.CloseBr d2, r2, c2) :: b) a.length Token.ClearCell)
      (a.length + 1) (a.length + 3) =
      a ++ (Token.ClearCell, r0, c0) :: b := by
    rw [replace_window_eq _ a.length 3 Token.ClearCell (Token.OpenBr d1)
      r0 c0 (by omega) hg0]
    rw [List.take_left' rfl]
    have hre : a ++ (Token.OpenBr d1, r0, c0) :: (Token.Add n, r1, c1)
        :: (Token.CloseBr d2, r2, c2) :: b =
        (a ++ [(Token.OpenBr d1, r0, c0), (Token.Add n, r1, c1),
          (Token.CloseBr d2, r2, c2)]) ++ b := by
      simp
    rw [show (a ++ (Token.OpenBr d1, r0, c0) :: (Token.Add n, r1, c1)
        :: (Token.CloseBr d2, r2, c2) :: b).drop (a.length + 3) = b by
      rw [hre]
      exact List.drop_left' (by simp)]
  obtain ⟨y, hy, hcol⟩ :=
    clear_cell_absorb_collapse b a (Token.ClearCell, r0, c0) hlen ha hb rfl
  obtain ⟨ty, ry, cy⟩ := y
  simp only at hy
  subst hy
  refine ⟨ry, cy, ?_⟩
  rw [clear_cell, hLlen,
    clear_cell_go_skip (a.length + 2)
      (a ++ (Token.OpenBr d1, r0, c0) :: (Token.Add n, r1, c1)
        :: (Token.CloseBr d2, r2, c2) :: b) (a.length + 1) hnoop,
    clear_cell_go_succ, hstep, hrep, hcol]
  exact clear_cell_go_zero a.length [(Token.ClearCell, ry, cy)]

/-- C6: the ClearCell pass — every `OpenBr, Add(n), CloseBr` triple with
`n` a nonzero byte collapses (together with any tower of matched
brackets immediately enclosing it, which the absorb loop fuses in one by
one until it reaches the stream boundary) to the single token
`ClearCell`; consequently the sources `[-]` and `[[[++]]]` both finalize
to the one-token stream `[ClearCell]`. -/
theorem claim_C6_clear_cell_pass {a b : List LTok}
    {d1 d2 n r0 c0 r1 c1 r2 c2 : Nat}
    (ha : ∀ p ∈ a, ∃ d, p.1 = Token.OpenBr d)
    (hb : ∀ p ∈ b, ∃ d, p.1 = Token.CloseBr d)
    (hlen : a.length = b.length)
    (hn1 : 1 ≤ n) (hn2 : n < 256) :
    (∃ r c, clear_cell
        (a ++ (Token.OpenBr d1, r0, c0) :: (Token.Add n, r1, c1)
          :: (Token.CloseBr d2, r2, c2) :: b) =
      [(Token.ClearCell, r, c)]) ∧
    process_code "[-]" = some (Except.ok [Token.ClearCell]) ∧
    process_code "[[[++]]]" = some (Except.ok [Token.ClearCell]) :=
  ⟨clear_cell_family ha hb hlen, rfl, rfl⟩

/-- Witness for C6: the located stream of `[[++]]` (one enclosing loop
around the `[++]` triple) collapses to a single `ClearCell`, and the two
concrete sources finalize to `[ClearCell]`. -/
theorem claim_C6_clear_cell_pass_witness :
    (∃ r c, clear_cell
        ([(Token.OpenBr 0, 1, 1)] ++ (Token.OpenBr 0, 1, 2)
          :: (Token.Add 2, 1, 3) :: (Token.CloseBr 0, 1, 4)
          :: [(Token.CloseBr 0, 1, 6)]) =
      [(Token.ClearCell, r, c)]) ∧
    process_code "[-]" = some (Except.ok [Token.ClearCell]) ∧
    process_code "[[[++]]]" = some (Except.ok [Token.ClearCell]) :=
  @claim_C6_clear_cell_pass
    [(Token.OpenBr 0, 1, 1)] [(Token.CloseBr 0, 1, 6)]
    0 0 2 1 2 1 3 1 4
    (by
      intro p hp
      rw [List.mem_singleton] at hp
      subst hp
      exact ⟨0, rfl⟩)
    (by
      intro p hp
      rw [List.mem_singleton] at hp
      subst hp
      exact ⟨0, rfl⟩)
    rfl (by decide) (by decide)

/-! ## C7: the AddTo and AddToCopy passes -/

/-- The six-token window of the AddTo pass, with its pointer-return
condition, as matched by `add_to`. -/
def add_to_window (ts : List LTok) (i : Nat) : Prop :=
  ∃ d1 m1 m2 d2,
    (ts[i]?).map Prod.fst = some (Token.OpenBr d1) ∧
    (ts[i + 1]?).map Prod.fst = some (Token.Add 255) ∧
    (ts[i + 2]?).map Prod.fst = some (Token.Move m1) ∧
    (ts[i + 3]?).map Prod.fst = some (Token.Add 1) ∧
    (ts[i + 4]?).map Prod.fst = some (Token.Move m2) ∧
    (ts[i + 5]?).map Prod.fst = some (Token.CloseBr d2) ∧
    (m1 + m2) % STORAGE_SIZE = 0

/-- The eight-token window of the AddToCopy pass, with its
pointer-return condition, as matched by `add_to_copy`. -/
def add_to_copy_window (ts : List LTok) (i : Nat) : Prop :=
  ∃ d1 m1 m2 m3 d2,
    (ts[i]?).map Prod.fst = some (Token.OpenBr d1) ∧
    (ts[i + 1]?).map Prod.fst = some (Token.Add 255) ∧
    (ts[i + 2]?).map Prod.fst = some (Token.Move m1) ∧
    (ts[i + 3]?).map Prod.fst = some (Token.Add 1) ∧
    (ts[i + 4]?).map Prod.fst = some (Token.Move m2) ∧
    (ts[i + 5]?).map Prod.fst = some (Token.Add 1) ∧
    (ts[i + 6]?).map Prod.fst = some (Token.Move m3) ∧
    (ts[i + 7]?).map Prod.fst = some (Token.CloseBr d2) ∧
    ((m1 + m2) % STORAGE_SIZE + m3) % STORAGE_SIZE = 0

/-- A position with no AddTo window (wrong shape or failed condition) is
left unchanged by the body of `add_to`'s loop. -/
theorem add_to_step_no_window {ts : List LTok} {i : Nat}
    (h : ¬ add_to_window ts i) : add_to_step ts i = (ts, i) := by
  rw [add_to_step]
  split
  · rfl
  split
  · rename_i d1 r0 c0 r1 c1 m1 r2 c2 r3 c3 m2 r4 c4 d2 r5 c5 h1 h2 h3 h4 h5 h6
    split
    · rename_i hc
      exact absurd ⟨d1, m1, m2, d2, by rw [h1]; rfl, by rw [h2]; rfl,
        by rw [h3]; rfl, by rw [h4]; rfl, by rw [h5]; rfl,
        by rw [h6]; rfl, hc⟩ h
    · rfl
  · rfl

/-- A position with no AddToCopy window is left unchanged by the body of
`add_to_copy`'s loop. -/
theorem add_to_copy_step_no_window {ts : List LTok} {i : Nat}
    (h : ¬ add_to_copy_window ts i) : add_to_copy_step ts i = (ts, i) := by
  rw [add_to_copy_step]
  split
  · rfl
  split
  · rename_i d1 r0 c0 r1 c1 m1 r2 c2 r3 c3 m2 r4 c4 r5 c5 m3 r6 c6 d2 r7 c7
      h1 h2 h3 h4 h5 h6 h7 h8
    split
    · rename_i hc
      exact absurd ⟨d1, m1, m2, m3, d2, by rw [h1]; rfl, by rw [h2]; rfl,
        by rw [h3]; rfl, by rw [h4]; rfl, by rw [h5]; rfl,
        by rw [h6]; rfl, by rw [h7]; rfl, by rw [h8]; rfl, hc⟩ h
    · rfl
  · rfl

/-- Manual unfolding of one absorb step of `add_to` / `add_to_copy`. -/
theorem add_to_absorb_succ (ts : List LTok) (i : Nat) :
    add_to_absorb ts (i + 1) =
      if i + 1 = ts.length - 1 then (ts, i + 1)
      else
        match ts[i]?, ts[i + 2]? with
        | some (Token.OpenBr _, _, _), some (Token.CloseBr _, _, _) =>
          match ts[i + 1]? with
          | some (tk, _, _) =>
            add_to_absorb (erase_range (set_tok ts i tk) (i + 1) (i + 3)) i
          | none => (ts, i + 1)
        | _, _ => (ts, i + 1) := rfl

/-- One absorb step of `add_to` / `add_to_copy`: the innermost
surrounding bracket pair fuses away, the inner token moving onto the
opener's slot. -/
theorem add_to_absorb_step {a2 b2 : List LTok} {tx : Token}
    {px : Nat × Nat} {dw db rw0 cw0 rb0 cb0 : Nat} :
    add_to_absorb
        (a2 ++ (Token.OpenBr dw, rw0, cw0) :: (tx, px)
          :: (Token.CloseBr db, rb0, cb0) :: b2) (a2.length + 1) =
      add_to_absorb (a2 ++ (tx, rw0, cw0) :: b2) a2.length := by
  have hg1 : (a2 ++ (Token.OpenBr dw, rw0, cw0) :: (tx, px)
      :: (Token.CloseBr db, rb0, cb0) :: b2)[a2.length]? =
      some (Token.OpenBr dw, rw0, cw0) := by
    rw [List.getElem?_append_right (le_refl _)]
    simp
  have hgm : (a2 ++ (Token.OpenBr dw, rw0, cw0) :: (tx, px)
      :: (Token.CloseBr db, rb0, cb0) :: b2)[a2.length + 1]? =
      some (tx, px) := by
    rw [List.getElem?_append_right (by omega)]
    simp [Nat.add_sub_cancel_left]
  have hg2 : (a2 ++ (Token.OpenBr dw, rw0, cw0) :: (tx, px)
      :: (Token.CloseBr db, rb0, cb0) :: b2)[a2.length + 2]? =
      some (Token.CloseBr db, rb0, cb0) := by
    rw [List.getElem?_append_right (by omega)]
    simp [Nat.add_sub_cancel_left]
  have hcond : ¬ (a2.length + 1 =
      (a2 ++ (Token.OpenBr dw, rw0, cw0) :: (tx, px)
        :: (Token.CloseBr db, rb0, cb0) :: b2).length - 1) := by
    simp only [List.length_append, List.length_cons]
    omega
  rw [add_to_absorb_succ, if_neg hcond, hg1, hg2, hgm]
  show add_to_absorb (erase_range (set_tok
      (a2 ++ (Token.OpenBr dw, rw0, cw0) :: (tx, px)
        :: (Token.CloseBr db, rb0, cb0) :: b2) a2.length tx)
      (a2.length + 1) (a2.length + 3)) a2.length =
    add_to_absorb (a2 ++ (tx, rw0, cw0) :: b2) a2.length
  rw [replace_window_eq _ a2.length 3 tx (Token.OpenBr dw)
    rw0 cw0 (by omega) hg1]
  rw [List.take_left' rfl]
  have hre : a2 ++ (Token.OpenBr dw, rw0, cw0) :: (tx, px)
      :: (Token.CloseBr db, rb0, cb0) :: b2 =
      (a2 ++ [(Token.OpenBr dw, rw0, cw0), (tx, px),
        (Token.CloseBr db, rb0, cb0)]) ++ b2 := by
    simp
  rw [show (a2 ++ (Token.OpenBr dw, rw0, cw0) :: (tx, px)
      :: (Token.CloseBr db, rb0, cb0) :: b2).drop (a2.length + 3) = b2 by
    rw [hre]
    exact List.drop_left' (by simp)]

/-- The absorb loop of `add_to` / `add_to_copy` collapses any tower of
matched brackets around its token down to that single token. -/
theorem add_to_absorb_collapse :
    ∀ (b a : List LTok) (x : LTok),
      a.length = b.length →
      (∀ p ∈ a, ∃ d, p.1 = Token.OpenBr d) →
      (∀ p ∈ b, ∃ d, p.1 = Token.CloseBr d) →
      ∃ y : LTok, y.1 = x.1 ∧
        add_to_absorb (a ++ x :: b) a.length = ([y], 0) := by
  intro b
  induction b with
  | nil =>
    intro a x hlen _ _
    have ha0 : a = [] := List.eq_nil_of_length_eq_zero hlen
    subst ha0
    exact ⟨x, rfl, rfl⟩
  | cons b0 b2 ih =>
    intro a x hlen ha hb
    rcases List.eq_nil_or_concat' a with rfl | ⟨a2, w, rfl⟩
    · simp at hlen
    · obtain ⟨dw, hwd⟩ := ha w (by simp)
      obtain ⟨db, hbd⟩ := hb b0 (by simp)
      obtain ⟨tw, rw0, cw0⟩ := w
      obtain ⟨tb, rb0, cb0⟩ := b0
      obtain ⟨tx, px⟩ := x
      simp only at hwd hbd
      subst hwd
      subst hbd
      have hL : (a2 ++ [(Token.OpenBr dw, rw0, cw0)]) ++ (tx, px)
          :: (Token.CloseBr db, rb0, cb0) :: b2 =
          a2 ++ (Token.OpenBr dw, rw0, cw0) :: (tx, px)
            :: (Token.CloseBr db, rb0, cb0) :: b2 := by
        simp
      have hlen2 : (a2 ++ [(Token.OpenBr dw, rw0, cw0)]).length =
          a2.length + 1 := by simp
      rw [hL, hlen2, add_to_absorb_step]
      have hlen3 : a2.length = b2.length := by
        simp at hlen
        omega
      obtain ⟨y, hy, hcol⟩ := ih a2 (tx, rw0, cw0) hlen3
        (fun p hp => ha p (by simp [hp]))
        (fun p hp => hb p (by simp [hp]))
      exact ⟨y, hy, hcol⟩

/-- Manual unfolding of one outer-loop step of `add_to`. -/
theorem add_to_go_succ (fuel : Nat) (ts : List LTok) (i : Nat) :
    add_to_go (fuel + 1) ts (i + 1) =
      add_to_go fuel (add_to_step ts i).1 (add_to_step ts i).2 := rfl

/-- The outer loop of `add_to` stops at index zero. -/
theorem add_to_go_zero (fuel : Nat) (ts : List LTok) :
    add_to_go fuel ts 0 = ts := by
  cases fuel <;> rfl

/-- The outer-loop body of `add_to` does nothing at an index that does
not hold an `OpenBr`. -/
theorem add_to_step_skip {ts : List LTok} {i : Nat}
    (h : ∀ d r c, ts[i]? ≠ some (Token.OpenBr d, r, c)) :
    add_to_step ts i = (ts, i) := by
  rw [add_to_step]
  split
  · rfl
  · cases hg : ts[i]? with
    | none => rfl
    | some p =>
      obtain ⟨t0, r0, c0⟩ := p
      cases t0 with
      | OpenBr d => exact absurd hg (h d r0 c0)
      | CloseBr d => rfl
      | Add m => rfl
      | Move m => rfl
      | Input => rfl
      | Output => rfl
      | ClearCell => rfl
      | AddTo d => rfl
      | AddToCopy d1 d2 => rfl

/-- The outer loop of `add_to` walks over a span holding no `OpenBr`
without changing anything. -/
theorem add_to_go_skip :
    ∀ (k : Nat) (ts : List LTok) (i : Nat),
      (∀ j, i ≤ j → j < i + k →
        ∀ d r c, ts[j]? ≠ some (Token.OpenBr d, r, c)) →
      add_to_go (i + k) ts (i + k) = add_to_go i ts i := by
  intro k
  induction k with
  | zero => intro ts i h; rfl
  | succ k ih =>
    intro ts i h
    have harr : i + (k + 1) = (i + k) + 1 := by omega
    rw [harr, add_to_go_succ,
      add_to_step_skip (fun d r c => h (i + k) (by omega) (by omega) d r c)]
    exact ih ts i (fun j h1 h2 => h j h1 (by omega))

/-- Manual unfolding of one outer-loop step of `add_to_copy`. -/
theorem add_to_copy_go_succ (fuel : Nat) (ts : List LTok) (i : Nat) :
    add_to_copy_go (fuel + 1) ts (i + 1) =
      add_to_copy_go fuel (add_to_copy_step ts i).1
        (add_to_copy_step ts i).2 := rfl

/-- The outer loop of `add_to_copy` stops at index zero. -/
theorem add_to_copy_go_zero (fuel : Nat) (ts : List LTok) :
    add_to_copy_go fuel ts 0 = ts := by
  cases fuel <;> rfl

/-- The outer-loop body of `add_to_copy` does nothing at an index that
does not hold an `OpenBr`. -/
theorem add_to_copy_step_skip {ts : List LTok} {i : Nat}
    (h : ∀ d r c, ts[i]? ≠ some (Token.OpenBr d, r, c)) :
    add_to_copy_step ts i = (ts, i) := by
  rw [add_to_copy_step]
  split
  · rfl
  · cases hg : ts[i]? with
    | none => rfl
    | some p =>
      obtain ⟨t0, r0, c0⟩ := p
      cases t0 with
      | OpenBr d => exact absurd hg (h d r0 c0)
      | CloseBr d => rfl
      | Add m => rfl
      | Move m => rfl
      | Input => rfl
      | Output => rfl
      | ClearCell => rfl
      | AddTo d => rfl
      | AddToCopy d1 d2 => rfl

/-- The outer loop of `add_to_copy` walks over a span holding no
`OpenBr` without changing anything. -/
theorem add_to_copy_go_skip :
    ∀ (k : Nat) (ts : List LTok) (i : Nat),
      (∀ j, i ≤ j → j < i + k →
        ∀ d r c, ts[j]? ≠ some (Token.OpenBr d, r, c)) →
      add_to_copy_go (i + k) ts (i + k) = add_to_copy_go i ts i := by
  intro k
  induction k with
  | zero => intro ts i h; rfl
  | succ k ih =>
    intro ts i h
    have harr : i + (k + 1) = (i + k) + 1 := by omega
    rw [harr, add_to_copy_go_succ,
      add_to_copy_step_skip (fun d r c => h (i + k) (by omega) (by omega) d r c)]
    exact ih ts i (fun j h1 h2 => h j h1 (by omega))

/-- The Token.AddTo m1 family law: the matched window surrounded by a tower
of matched brackets collapses, through the window rewrite and the absorb
loop, to the single replacement token. -/
theorem add_to_family {a b : List LTok} {d1 d2 m1 m2 r0 c0 r1 c1 r2 c2 r3 c3 r4 c4 r5 c5 : Nat}
    (ha : ∀ p ∈ a, ∃ d, p.1 = Token.OpenBr d)
    (hb : ∀ p ∈ b, ∃ d, p.1 = Token.CloseBr d)
    (hlen : a.length = b.length)
    (hm : (m1 + m2) % STORAGE_SIZE = 0) :
    ∃ r c, add_to (a ++ (Token.OpenBr d1, r0, c0) :: (Token.Add 255, r1, c1) :: (Token.Move m1, r2, c2) :: (Token.Add 1, r3, c3) :: (Token.Move m2, r4, c4) :: (Token.CloseBr d2, r5, c5) :: b) = [(Token.AddTo m1, r, c)] := by
  have hg0 : (a ++ (Token.OpenBr d1, r0, c0) :: (Token.Add 255, r1, c1) :: (Token.Move m1, r2, c2) :: (Token.Add 1, r3, c3) :: (Token.Move m2, r4, c4) :: (Token.CloseBr d2, r5, c5) :: b)[a.length]? = some (Token.OpenBr d1, r0, c0) := by
    rw [List.getElem?_append_right (le_refl _)]
    simp
  have hg1 : (a ++ (Token.OpenBr d1, r0, c0) :: (Token.Add 255, r1, c1) :: (Token.Move m1, r2, c2) :: (Token.Add 1, r3, c3) :: (Token.Move m2, r4, c4) :: (Token.CloseBr d2, r5, c5) :: b)[a.length + 1]? = some (Token.Add 255, r1, c1) := by
    rw [List.getElem?_append_right (by omega)]
    simp [Nat.add_sub_cancel_left]
  have hg2 : (a ++ (Token.OpenBr d1, r0, c0) :: (Token.Add 255, r1, c1) :: (Token.Move m1, r2, c2) :: (Token.Add 1, r3, c3) :: (Token.Move m2, r4, c4) :: (Token.CloseBr d2, r5, c5) :: b)[a.length + 2]? = some (Token.Move m1, r2, c2) := by
    rw [List.getElem?_append_right (by omega)]
    simp [Nat.add_sub_cancel_left]
  have hg3 : (a ++ (Token.OpenBr d1, r0, c0) :: (Token.Add 255, r1, c1) :: (Token.Move m1, r2, c2) :: (Token.Add 1, r3, c3) :: (Token.Move m2, r4, c4) :: (Token.CloseBr d2, r5, c5) :: b)[a.length + 3]? = some (Token.Add 1, r3, c3) := by
    rw [List.getElem?_append_right (by omega)]
    simp [Nat.add_sub_cancel_left]
  have hg4 : (a ++ (Token.OpenBr d1, r0, c0) :: (Token.Add 255, r1, c1) :: (Token.Move m1, r2, c2) :: (Token.Add 1, r3, c3) :: (Token.Move m2, r4, c4) :: (Token.CloseBr d2, r5, c5) :: b)[a.length + 4]? = some (Token.Move m2, r4, c4) := by
    rw [List.getElem?_append_right (by omega)]
    simp [Nat.add_sub_cancel_left]
  have hg5 : (a ++ (Token.OpenBr d1, r0, c0) :: (Token.Add 255, r1, c1) :: (Token.Move m1, r2, c2) :: (Token.Add 1, r3, c3) :: (Token.Move m2, r4, c4) :: (Token.CloseBr d2, r5, c5) :: b)[a.length + 5]? = some (Token.CloseBr d2, r5, c5) := by
    rw [List.getElem?_append_right (by omega)]
    simp [Nat.add_sub_cancel_left]
  have hLlen : (a ++ (Token.OpenBr d1, r0, c0) :: (Token.Add 255, r1, c1) :: (Token.Move m1, r2, c2) :: (Token.Add 1, r3, c3) :: (Token.Move m2, r4, c4) :: (Token.CloseBr d2, r5, c5) :: b).length = (a.length + 1) + (a.length + 5) := by
    simp only [List.length_append, List.length_cons]
    omega
  have hnoop : ∀ j, a.length + 1 ≤ j → j < (a.length + 1) + (a.length + 5) →
      ∀ d r c, (a ++ (Token.OpenBr d1, r0, c0) :: (Token.Add 255, r1, c1) :: (Token.Move m1, r2, c2) :: (Token.Add 1, r3, c3) :: (Token.Move m2, r4, c4) :: (Token.CloseBr d2, r5, c5) :: b)[j]? ≠ some (Token.OpenBr d, r, c) := by
    intro j hj1 hj2 d r c hcon
    rcases Nat.lt_or_ge j (a.length + 6) with h3 | h3
    · have hcases : j = a.length + 1 ∨ j = a.length + 2 ∨ j = a.length + 3 ∨ j = a.length + 4 ∨ j = a.length + 5 := by omega
      rcases hcases with rfl | rfl | rfl | rfl | rfl
      · rw [hg1] at hcon
        simp at hcon
      · rw [hg2] at hcon
        simp at hcon
      · rw [hg3] at hcon
        simp at hcon
      · rw [hg4] at hcon
        simp at hcon
      · rw [hg5] at hcon
        simp at hcon
    · rw [List.getElem?_append_right (by omega)] at hcon
      have h4 : j - a.length = (j - a.length - 6) + 6 := by omega
      rw [h4] at hcon
      simp only [List.getElem?_cons_succ] at hcon
      obtain ⟨db, hdb⟩ := hb _ (List.getElem?_mem hcon)
      simp at hdb
  have hcond : ¬ ((a ++ (Token.OpenBr d1, r0, c0) :: (Token.Add 255, r1, c1) :: (Token.Move m1, r2, c2) :: (Token.Add 1, r3, c3) :: (Token.Move m2, r4, c4) :: (Token.CloseBr d2, r5, c5) :: b).length - a.length < 6) := by
    simp only [List.length_append, List.length_cons]
    omega
  have hstep : add_to_step (a ++ (Token.OpenBr d1, r0, c0) :: (Token.Add 255, r1, c1) :: (Token.Move m1, r2, c2) :: (Token.Add 1, r3, c3) :: (Token.Move m2, r4, c4) :: (Token.CloseBr d2, r5, c5) :: b) a.length =
      add_to_absorb (erase_range (set_tok (a ++ (Token.OpenBr d1, r0, c0) :: (Token.Add 255, r1, c1) :: (Token.Move m1, r2, c2) :: (Token.Add 1, r3, c3) :: (Token.Move m2, r4, c4) :: (Token.CloseBr d2, r5, c5) :: b) a.length (Token.AddTo m1))
        (a.length + 1) (a.length + 6)) a.length := by
    rw [add_to_step, if_neg hcond, hg0, hg1, hg2, hg3, hg4, hg5]
    exact if_pos hm
  have hrep : erase_range (set_tok (a ++ (Token.OpenBr d1, r0, c0) :: (Token.Add 255, r1, c1) :: (Token.Move m1, r2, c2) :: (Token.Add 1, r3, c3) :: (Token.Move m2, r4, c4) :: (Token.CloseBr d2, r5, c5) :: b) a.length (Token.AddTo m1))
      (a.length + 1) (a.length + 6) =
      a ++ (Token.AddTo m1, r0, c0) :: b := by
    rw [replace_window_eq _ a.length 6 (Token.AddTo m1) (Token.OpenBr d1)
      r0 c0 (by omega) hg0]
    rw [List.take_left' rfl]
    have hre : (a ++ (Token.OpenBr d1, r0, c0) :: (Token.Add 255, r1, c1) :: (Token.Move m1, r2, c2) :: (Token.Add 1, r3, c3) :: (Token.Move m2, r4, c4) :: (Token.CloseBr d2, r5, c5) :: b) = (a ++ [(Token.OpenBr d1, r0, c0), (Token.Add 255, r1, c1), (Token.Move m1, r2, c2), (Token.Add 1, r3, c3), (Token.Move m2, r4, c4), (Token.CloseBr d2, r5, c5)]) ++ b := by
      simp
    rw [show (a ++ (Token.OpenBr d1, r0, c0) :: (Token.Add 255, r1, c1) :: (Token.Move m1, r2, c2) :: (Token.Add 1, r3, c3) :: (Token.Move m2, r4, c4) :: (Token.CloseBr d2, r5, c5) :: b).drop (a.length + 6) = b by
      rw [hre]
      exact List.drop_left' (by simp)]
  obtain ⟨y, hy, hcol⟩ := add_to_absorb_collapse b a (Token.AddTo m1, r0, c0) hlen ha hb
  obtain ⟨ty, ry, cy⟩ := y
  simp only at hy
  subst hy
  refine ⟨ry, cy, ?_⟩
  rw [add_to, hLlen,
    add_to_go_skip (a.length + 5) (a ++ (Token.OpenBr d1, r0, c0) :: (Token.Add 255, r1, c1) :: (Token.Move m1, r2, c2) :: (Token.Add 1, r3, c3) :: (Token.Move m2, r4, c4) :: (Token.CloseBr d2, r5, c5) :: b) (a.length + 1) hnoop,
    add_to_go_succ, hstep, hrep, hcol]
  exact add_to_go_zero a.length [(Token.AddTo m1, ry, cy)]

/-- The Token.AddToCopy m1 ((m1 + m2) % STORAGE_SIZE) family law: the matched window surrounded by a tower
of matched brackets collapses, through the window rewrite and the absorb
loop, to the single replacement token. -/
theorem add_to_copy_family {a b : List LTok} {d1 d2 m1 m2 m3 r0 c0 r1 c1 r2 c2 r3 c3 r4 c4 r5 c5 r6 c6 r7 c7 : Nat}
    (ha : ∀ p ∈ a, ∃ d, p.1 = Token.OpenBr d)
    (hb : ∀ p ∈ b, ∃ d, p.1 = Token.CloseBr d)
    (hlen : a.length = b.length)
    (hm : ((m1 + m2) % STORAGE_SIZE + m3) % STORAGE_SIZE = 0) :
    ∃ r c, add_to_copy (a ++ (Token.OpenBr d1, r0, c0) :: (Token.Add 255, r1, c1) :: (Token.Move m1, r2, c2) :: (Token.Add 1, r3, c3) :: (Token.Move m2, r4, c4) :: (Token.Add 1, r5, c5) :: (Token.Move m3, r6, c6) :: (Token.CloseBr d2, r7, c7) :: b) = [(Token.AddToCopy m1 ((m1 + m2) % STORAGE_SIZE), r, c)] := by
  have hg0 : (a ++ (Token.OpenBr d1, r0, c0) :: (Token.Add 255, r1, c1) :: (Token.Move m1, r2, c2) :: (Token.Add 1, r3, c3) :: (Token.Move m2, r4, c4) :: (Token.Add 1, r5, c5) :: (Token.Move m3, r6, c6) :: (Token.CloseBr d2, r7, c7) :: b)[a.length]? = some (Token.OpenBr d1, r0, c0) := by
    rw [List.getElem?_append_right (le_refl _)]
    simp
  have hg1 : (a ++ (Token.OpenBr d1, r0, c0) :: (Token.Add 255, r1, c1) :: (Token.Move m1, r2, c2) :: (Token.Add 1, r3, c3) :: (Token.Move m2, r4, c4) :: (Token.Add 1, r5, c5) :: (Token.Move m3, r6, c6) :: (Token.CloseBr d2, r7, c7) :: b)[a.length + 1]? = some (Token.Add 255, r1, c1) := by
    rw [List.getElem?_append_right (by omega)]
    simp [Nat.add_sub_cancel_left]
  have hg2 : (a ++ (Token.OpenBr d1, r0, c0) :: (Token.Add 255, r1, c1) :: (Token.Move m1, r2, c2) :: (Token.Add 1, r3, c3) :: (Token.Move m2, r4, c4) :: (Token.Add 1, r5, c5) :: (Token.Move m3, r6, c6) :: (Token.CloseBr d2, r7, c7) :: b)[a.length + 2]? = some (Token.Move m1, r2, c2) := by
    rw [List.getElem?_append_right (by omega)]
    simp [Nat.add_sub_cancel_left]
  have hg3 : (a ++ (Token.OpenBr d1, r0, c0) :: (Token.Add 255, r1, c1) :: (Token.Move m1, r2, c2) :: (Token.Add 1, r3, c3) :: (Token.Move m2, r4, c4) :: (Token.Add 1, r5, c5) :: (Token.Move m3, r6, c6) :: (Token.CloseBr d2, r7, c7) :: b)[a.length + 3]? = some (Token.Add 1, r3, c3) := by
    rw [List.getElem?_append_right (by omega)]
    simp [Nat.add_sub_cancel_left]
  have hg4 : (a ++ (Token.OpenBr d1, r0, c0) :: (Token.Add 255, r1, c1) :: (Token.Move m1, r2, c2) :: (Token.Add 1, r3, c3) :: (Token.Move m2, r4, c4) :: (Token.Add 1, r5, c5) :: (Token.Move m3, r6, c6) :: (Token.CloseBr d2, r7, c7) :: b)[a.length + 4]? = some (Token.Move m2, r4, c4) := by
    rw [List.getElem?_append_right (by omega)]
    simp [Nat.add_sub_cancel_left]
  have hg5 : (a ++ (Token.OpenBr d1, r0, c0) :: (Token.Add 255, r1, c1) :: (Token.Move m1, r2, c2) :: (Token.Add 1, r3, c3) :: (Token.Move m2, r4, c4) :: (Token.Add 1, r5, c5) :: (Token.Move m3, r6, c6) :: (Token.CloseBr d2, r7, c7) :: b)[a.length + 5]? = some (Token.Add 1, r5, c5) := by
    rw [List.getElem?_append_right (by omega)]
    simp [Nat.add_sub_cancel_left]
  have hg6 : (a ++ (Token.OpenBr d1, r0, c0) :: (Token.Add 255, r1, c1) :: (Token.Move m1, r2, c2) :: (Token.Add 1, r3, c3) :: (Token.Move m2, r4, c4) :: (Token.Add 1, r5, c5) :: (Token.Move m3, r6, c6) :: (Token.CloseBr d2, r7, c7) :: b)[a.length + 6]? = some (Token.Move m3, r6, c6) := by
    rw [List.getElem?_append_right (by omega)]
    simp [Nat.add_sub_cancel_left]
  have hg7 : (a ++ (Token.OpenBr d1, r0, c0) :: (Token.Add 255, r1, c1) :: (Token.Move m1, r2, c2) :: (Token.Add 1, r3, c3) :: (Token.Move m2, r4, c4) :: (Token.Add 1, r5, c5) :: (Token.Move m3, r6, c6) :: (Token.CloseBr d2, r7, c7) :: b)[a.length + 7]? = some (Token.CloseBr d2, r7, c7) := by
    rw [List.getElem?_append_right (by omega)]
    simp [Nat.add_sub_cancel_left]
  have hLlen : (a ++ (Token.OpenBr d1, r0, c0) :: (Token.Add 255, r1, c1) :: (Token.Move m1, r2, c2) :: (Token.Add 1, r3, c3) :: (Token.Move m2, r4, c4) :: (Token.Add 1, r5, c5) :: (Token.Move m3, r6, c6) :: (Token.CloseBr d2, r7, c7) :: b).length = (a.length + 1) + (a.length + 7) := by
    simp only [List.length_append, List.length_cons]
    omega
  have hnoop : ∀ j, a.length + 1 ≤ j → j < (a.length + 1) + (a.length + 7) →
      ∀ d r c, (a ++ (Token.OpenBr d1, r0, c0) :: (Token.Add 255, r1, c1) :: (Token.Move m1, r2, c2) :: (Token.Add 1, r3, c3) :: (Token.Move m2, r4, c4) :: (Token.Add 1, r5, c5) :: (Token.Move m3, r6, c6) :: (Token.CloseBr d2, r7, c7) :: b)[j]? ≠ some (Token.OpenBr d, r, c) := by
    intro j hj1 hj2 d r c hcon
    rcases Nat.lt_or_ge j (a.length + 8) with h3 | h3
    · have hcases : j = a.length + 1 ∨ j = a.length + 2 ∨ j = a.length + 3 ∨ j = a.length + 4 ∨ j = a.length + 5 ∨ j = a.length + 6 ∨ j = a.length + 7 := by omega
      rcases hcases with rfl | rfl | rfl | rfl | rfl | rfl | rfl
      · rw [hg1] at hcon
        simp at hcon
      · rw [hg2] at hcon
        simp at hcon
      · rw [hg3] at hcon
        simp at hcon
      · rw [hg4] at hcon
        simp at hcon
      · rw [hg5] at hcon
        simp at hcon
      · rw [hg6] at hcon
        simp at hcon
      · rw [hg7] at hcon
        simp at hcon
    · rw [List.getElem?_append_right (by omega)] at hcon
      have h4 : j - a.length = (j - a.length - 8) + 8 := by omega
      rw [h4] at hcon
      simp only [List.getElem?_cons_succ] at hcon
      obtain ⟨db, hdb⟩ := hb _ (List.getElem?_mem hcon)
      simp at hdb
  have hcond : ¬ ((a ++ (Token.OpenBr d1, r0, c0) :: (Token.Add 255, r1, c1) :: (Token.Move m1, r2, c2) :: (Token.Add 1, r3, c3) :: (Token.Move m2, r4, c4) :: (Token.Add 1, r5, c5) :: (Token.Move m3, r6, c6) :: (Token.CloseBr d2, r7, c7) :: b).length - a.length < 8) := by
    simp only [List.length_append, List.length_cons]
    omega
  have hstep : add_to_copy_step (a ++ (Token.OpenBr d1, r0, c0) :: (Token.Add 255, r1, c1) :: (Token.Move m1, r2, c2) :: (Token.Add 1, r3, c3) :: (Token.Move m2, r4, c4) :: (Token.Add 1, r5, c5) :: (Token.Move m3, r6, c6) :: (Token.CloseBr d2, r7, c7) :: b) a.length =
      add_to_absorb (erase_range (set_tok (a ++ (Token.OpenBr d1, r0, c0) :: (Token.Add 255, r1, c1) :: (Token.Move m1, r2, c2) :: (Token.Add 1, r3, c3) :: (Token.Move m2, r4, c4) :: (Token.Add 1, r5, c5) :: (Token.Move m3, r6, c6) :: (Token.CloseBr d2, r7, c7) :: b) a.length (Token.AddToCopy m1 ((m1 + m2) % STORAGE_SIZE)))
        (a.length + 1) (a.length + 8)) a.length := by
    rw [add_to_copy_step, if_neg hcond, hg0, hg1, hg2, hg3, hg4, hg5, hg6, hg7]
    exact if_pos hm
  have hrep : erase_range (set_tok (a ++ (Token.OpenBr d1, r0, c0) :: (Token.Add 255, r1, c1) :: (Token.Move m1, r2, c2) :: (Token.Add 1, r3, c3) :: (Token.Move m2, r4, c4) :: (Token.Add 1, r5, c5) :: (Token.Move m3, r6, c6) :: (Token.CloseBr d2, r7, c7) :: b) a.length (Token.AddToCopy m1 ((m1 + m2) % STORAGE_SIZE)))
      (a.length + 1) (a.length + 8) =
      a ++ (Token.AddToCopy m1 ((m1 + m2) % STORAGE_SIZE), r0, c0) :: b := by
    rw [replace_window_eq _ a.length 8 (Token.AddToCopy m1 ((m1 + m2) % STORAGE_SIZE)) (Token.OpenBr d1)
      r0 c0 (by omega) hg0]
    rw [List.take_left' rfl]
    have hre : (a ++ (Token.OpenBr d1, r0, c0) :: (Token.Add 255, r1, c1) :: (Token.Move m1, r2, c2) :: (Token.Add 1, r3, c3) :: (Token.Move m2, r4, c4) :: (Token.Add 1, r5, c5) :: (Token.Move m3, r6, c6) :: (Token.CloseBr d2, r7, c7) :: b) = (a ++ [(Token.OpenBr d1, r0, c0), (Token.Add 255, r1, c1), (Token.Move m1, r2, c2), (Token.Add 1, r3, c3), (Token.Move m2, r4, c4), (Token.Add 1, r5, c5), (Token.Move m3, r6, c6), (Token.CloseBr d2, r7, c7)]) ++ b := by
      simp
    rw [show (a ++ (Token.OpenBr d1, r0, c0) :: (Token.Add 255, r1, c1) :: (Token.Move m1, r2, c2) :: (Token.Add 1, r3, c3) :: (Token.Move m2, r4, c4) :: (Token.Add 1, r5, c5) :: (Token.Move m3, r6, c6) :: (Token.CloseBr d2, r7, c7) :: b).drop (a.length + 8) = b by
      rw [hre]
      exact List.drop_left' (by simp)]
  obtain ⟨y, hy, hcol⟩ := add_to_absorb_collapse b a (Token.AddToCopy m1 ((m1 + m2) % STORAGE_SIZE), r0, c0) hlen ha hb
  obtain ⟨ty, ry, cy⟩ := y
  simp only at hy
  subst hy
  refine ⟨ry, cy, ?_⟩
  rw [add_to_copy, hLlen,
    add_to_copy_go_skip (a.length + 7) (a ++ (Token.OpenBr d1, r0, c0) :: (Token.Add 255, r1, c1) :: (Token.Move m1, r2, c2) :: (Token.Add 1, r3, c3) :: (Token.Move m2, r4, c4) :: (Token.Add 1, r5, c5) :: (Token.Move m3, r6, c6) :: (Token.CloseBr d2, r7, c7) :: b) (a.length + 1) hnoop,
    add_to_copy_go_succ, hstep, hrep, hcol]
  exact add_to_copy_go_zero a.length [(Token.AddToCopy m1 ((m1 + m2) % STORAGE_SIZE), ry, cy)]

/-- C7: the AddTo and AddToCopy passes — a six-token window
`OpenBr, Add(255), Move(m1), Add(1), Move(m2), CloseBr` whose pointer
returns (`(m1 + m2) mod 30000 = 0`), surrounded by a tower of matched
brackets, collapses to the single token `AddTo(m1)`; an eight-token
window `OpenBr, Add(255), Move(m1), Add(1), Move(m2), Add(1), Move(m3),
CloseBr` with `((m1+m2) mod 30000 + m3) mod 30000 = 0` collapses to
`AddToCopy(m1, (m1+m2) mod 30000)`; a position failing the exact token
shape or the pointer-return condition is left unchanged by either pass;
and the sources `[->>+<<]` and `[->>+>+<<<]` finalize to `[AddTo 2]` and
`[AddToCopy 2 3]`. -/
theorem claim_C7_pattern_passes
    (a b a2 b2 : List LTok)
    (d1 d2 m1 m2 r0 c0 r1 c1 r2 c2 r3 c3 r4 c4 r5 c5 : Nat)
    (e1 e2 n1 n2 n3 q0 w0 q1 w1 q2 w2 q3 w3 q4 w4 q5 w5 q6 w6 q7 w7 : Nat)
    (ha : ∀ p ∈ a, ∃ d, p.1 = Token.OpenBr d)
    (hb : ∀ p ∈ b, ∃ d, p.1 = Token.CloseBr d)
    (hlen : a.length = b.length)
    (hm : (m1 + m2) % STORAGE_SIZE = 0)
    (ha2 : ∀ p ∈ a2, ∃ d, p.1 = Token.OpenBr d)
    (hb2 : ∀ p ∈ b2, ∃ d, p.1 = Token.CloseBr d)
    (hlen2 : a2.length = b2.length)
    (hm2 : ((n1 + n2) % STORAGE_SIZE + n3) % STORAGE_SIZE = 0) :
    (∃ r c, add_to (a ++ (Token.OpenBr d1, r0, c0) :: (Token.Add 255, r1, c1) :: (Token.Move m1, r2, c2) :: (Token.Add 1, r3, c3) :: (Token.Move m2, r4, c4) :: (Token.CloseBr d2, r5, c5) :: b) = [(Token.AddTo m1, r, c)]) ∧
    (∃ r c, add_to_copy (a2 ++ (Token.OpenBr e1, q0, w0) :: (Token.Add 255, q1, w1) :: (Token.Move n1, q2, w2) :: (Token.Add 1, q3, w3) :: (Token.Move n2, q4, w4) :: (Token.Add 1, q5, w5) :: (Token.Move n3, q6, w6) :: (Token.CloseBr e2, q7, w7) :: b2) = [(Token.AddToCopy n1 ((n1 + n2) % STORAGE_SIZE), r, c)]) ∧
    (∀ ts i, ¬ add_to_window ts i → add_to_step ts i = (ts, i)) ∧
    (∀ ts i, ¬ add_to_copy_window ts i → add_to_copy_step ts i = (ts, i)) ∧
    process_code "[->>+<<]" = some (Except.ok [Token.AddTo 2]) ∧
    process_code "[->>+>+<<<]" = some (Except.ok [Token.AddToCopy 2 3]) :=
  ⟨add_to_family ha hb hlen hm,
   add_to_copy_family ha2 hb2 hlen2 hm2,
   fun ts i h => add_to_step_no_window h,
   fun ts i h => add_to_copy_step_no_window h,
   rfl, rfl⟩

/-- Witness for C7 at concrete windows: `[[->>+<<]]` (one enclosing
loop) collapses to `AddTo 2`, the bare copy window to
`AddToCopy 2 ((2 + 1) % STORAGE_SIZE)`, the no-window identities
instantiated at the empty stream, and the two concrete sources. -/
theorem claim_C7_pattern_passes_witness :
    (∃ r c, add_to ([(Token.OpenBr 9, 1, 1)] ++ (Token.OpenBr 7, 1, 2) :: (Token.Add 255, 1, 3) :: (Token.Move 2, 1, 4) :: (Token.Add 1, 1, 5) :: (Token.Move 29998, 1, 6) :: (Token.CloseBr 7, 1, 7) :: [(Token.CloseBr 9, 1, 8)]) = [(Token.AddTo 2, r, c)]) ∧
    (∃ r c, add_to_copy (([] : List LTok) ++ (Token.OpenBr 0, 2, 1) :: (Token.Add 255, 2, 2) :: (Token.Move 2, 2, 3) :: (Token.Add 1, 2, 4) :: (Token.Move 1, 2, 5) :: (Token.Add 1, 2, 6) :: (Token.Move 29997, 2, 7) :: (Token.CloseBr 0, 2, 8) :: ([] : List LTok)) = [(Token.AddToCopy 2 ((2 + 1) % STORAGE_SIZE), r, c)]) ∧
    (∀ ts i, ¬ add_to_window ts i → add_to_step ts i = (ts, i)) ∧
    (∀ ts i, ¬ add_to_copy_window ts i → add_to_copy_step ts i = (ts, i)) ∧
    process_code "[->>+<<]" = some (Except.ok [Token.AddTo 2]) ∧
    process_code "[->>+>+<<<]" = some (Except.ok [Token.AddToCopy 2 3]) :=
  claim_C7_pattern_passes
    [(Token.OpenBr 9, 1, 1)] [(Token.CloseBr 9, 1, 8)] [] []
    7 7 2 29998 1 2 1 3 1 4 1 5 1 6 1 7
    0 0 2 1 29997 2 1 2 2 2 3 2 4 2 5 2 6 2 7 2 8
    (by
      intro p hp
      rw [List.mem_singleton] at hp
      subst hp
      exact ⟨9, rfl⟩)
    (by
      intro p hp
      rw [List.mem_singleton] at hp
      subst hp
      exact ⟨9, rfl⟩)
    rfl (by decide)
    (by intro p hp; cases hp)
    (by intro p hp; cases hp)
    rfl (by decide)

/-! ## C8: bracket validation -/

/-- `check_loops_go` on a stream whose first excess close (relative to
the running stack) sits at index `j` reports `UnmatchedCloseBr` at that
closer's location. -/
theorem check_loops_go_excess :
    ∀ (ts : List LTok) (stk : List (Nat × Nat)) (j d r c : Nat),
      ts[j]? = some (Token.CloseBr d, r, c) →
      (stk.length : Int) + depthL ((ts.map Prod.fst).take (j + 1)) < 0 →
      (∀ k, k ≤ j → 0 ≤ (stk.length : Int) + depthL ((ts.map Prod.fst).take k)) →
      check_loops_go ts stk = .error (.UnmatchedCloseBr r c) := by
  intro ts
  induction ts with
  | nil =>
    intro stk j d r c hj _ _
    simp at hj
  | cons p rest ih =>
    obtain ⟨t, r0, c0⟩ := p
    intro stk j d r c hj hneg hnn
    cases j with
    | zero =>
      simp only [List.getElem?_cons_zero, Option.some.injEq,
        Prod.mk.injEq] at hj
      obtain ⟨ht, hr, hc⟩ := hj
      subst ht
      subst hr
      subst hc
      simp only [List.map_cons, List.take_succ_cons, List.take_zero,
        depthL_cons, depthL_nil, br_adj] at hneg
      have hstk0 : stk.length = 0 := by omega
      have hstk : stk = [] := List.eq_nil_of_length_eq_zero hstk0
      subst hstk
      rfl
    | succ j2 =>
      rw [List.getElem?_cons_succ] at hj
      cases t with
      | OpenBr d0 =>
        refine ih ((r0, c0) :: stk) j2 d r c hj ?_ ?_
        · simp only [List.map_cons, List.take_succ_cons, depthL_cons,
            br_adj] at hneg
          simp only [List.length_cons]
          push_cast at hneg ⊢
          omega
        · intro k hk
          have h2 := hnn (k + 1) (by omega)
          simp only [List.map_cons, List.take_succ_cons, depthL_cons,
            br_adj] at h2
          simp only [List.length_cons]
          push_cast at h2 ⊢
          omega
      | CloseBr d0 =>
        have h1 := hnn 1 (by omega)
        simp only [List.map_cons, List.take_succ_cons, List.take_zero,
          depthL_cons, depthL_nil, br_adj] at h1
        cases hstk : stk with
        | nil =>
          rw [hstk] at h1
          simp at h1
        | cons q stk2 =>
          subst hstk
          show check_loops_go rest stk2 = _
          refine ih stk2 j2 d r c hj ?_ ?_
          · simp only [List.map_cons, List.take_succ_cons, depthL_cons,
              br_adj] at hneg
            simp only [List.length_cons] at hneg
            push_cast at hneg ⊢
            omega
          · intro k hk
            have h2 := hnn (k + 1) (by omega)
            simp only [List.map_cons, List.take_succ_cons, depthL_cons,
              br_adj, List.length_cons] at h2
            push_cast at h2 ⊢
            omega
      | Add m =>
        refine ih stk j2 d r c hj ?_ ?_
        · simp only [List.map_cons, List.take_succ_cons, depthL_cons,
            br_adj] at hneg
          omega
        · intro k hk
          have h2 := hnn (k + 1) (by omega)
          simp only [List.map_cons, List.take_succ_cons, depthL_cons,
            br_adj] at h2
          omega
      | Move m =>
        refine ih stk j2 d r c hj ?_ ?_
        · simp only [List.map_cons, List.take_succ_cons, depthL_cons,
            br_adj] at hneg
          omega
        · intro k hk
          have h2 := hnn (k + 1) (by omega)
          simp only [List.map_cons, List.take_succ_cons, depthL_cons,
            br_adj] at h2
          omega
      | Input =>
        refine ih stk j2 d r c hj ?_ ?_
        · simp only [List.map_cons, List.take_succ_cons, depthL_cons,
            br_adj] at hneg
          omega
        · intro k hk
          have h2 := hnn (k + 1) (by omega)
          simp only [List.map_cons, List.take_succ_cons, depthL_cons,
            br_adj] at h2
          omega
      | Output =>
        refine ih stk j2 d r c hj ?_ ?_
        · simp only [List.map_cons, List.take_succ_cons, depthL_cons,
            br_adj] at hneg
          omega
        · intro k hk
          have h2 := hnn (k + 1) (by omega)
          simp only [List.map_cons, List.take_succ_cons, depthL_cons,
            br_adj] at h2
          omega
      | ClearCell =>
        refine ih stk j2 d r c hj ?_ ?_
        · simp only [List.map_cons, List.take_succ_cons, depthL_cons,
            br_adj] at hneg
          omega
        · intro k hk
          have h2 := hnn (k + 1) (by omega)
          simp only [List.map_cons, List.take_succ_cons, depthL_cons,
            br_adj] at h2
          omega
      | AddTo dd =>
        refine ih stk j2 d r c hj ?_ ?_
        · simp only [List.map_cons, List.take_succ_cons, depthL_cons,
            br_adj] at hneg
          omega
        · intro k hk
          have h2 := hnn (k + 1) (by omega)
          simp only [List.map_cons, List.take_succ_cons, depthL_cons,
            br_adj] at h2
          omega
      | AddToCopy dd1 dd2 =>
        refine ih stk j2 d r c hj ?_ ?_
        · simp only [List.map_cons, List.take_succ_cons, depthL_cons,
            br_adj] at hneg
          omega
        · intro k hk
          have h2 := hnn (k + 1) (by omega)
          simp only [List.map_cons, List.take_succ_cons, depthL_cons,
            br_adj] at h2
          omega

/-- `check_loops_go`, resumed mid-scan with a stack that mirrors the
still-open brackets of the consumed prefix, ends by reporting
`UnmatchedOpenBr` at the location of the top-most opener that is never
matched, whenever the whole stream has no excess close and a positive
final depth. -/
theorem check_loops_go_open :
    ∀ (rest : List LTok) (ts : List LTok) (i : Nat)
      (stk : List (Nat × Nat)) (istk : List Nat),
      ts.drop i = rest →
      i ≤ ts.length →
      stk.length = istk.length →
      List.Pairwise (fun x y => y < x) istk →
      ((stk.length : Int) = depthL ((ts.map Prod.fst).take i)) →
      (∀ (j o : Nat), istk[j]? = some o →
        o < i ∧
        (∃ d r2 c2, ts[o]? = some (Token.OpenBr d, r2, c2) ∧
          stk[j]? = some (r2, c2)) ∧
        depthL ((ts.map Prod.fst).take (o + 1)) = (stk.length : Int) - j ∧
        (∀ k, o < k → k ≤ i →
          (stk.length : Int) - j ≤ depthL ((ts.map Prod.fst).take k))) →
      (∀ o2, o2 < i → o2 ∉ istk →
        ∃ k, o2 < k ∧ k ≤ i ∧
          depthL ((ts.map Prod.fst).take k) ≤
            depthL ((ts.map Prod.fst).take o2)) →
      (∀ k, 0 ≤ depthL ((ts.map Prod.fst).take k)) →
      (0 < depthL (ts.map Prod.fst)) →
      ∃ o d r c, ts[o]? = some (Token.OpenBr d, r, c) ∧
        check_loops_go rest stk = .error (.UnmatchedOpenBr r c) ∧
        (∀ k, o < k → k ≤ ts.length →
          depthL ((ts.map Prod.fst).take o) <
            depthL ((ts.map Prod.fst).take k)) ∧
        (∀ o2, o < o2 → o2 < ts.length →
          ∃ k, o2 < k ∧ k ≤ ts.length ∧
            depthL ((ts.map Prod.fst).take k) ≤
              depthL ((ts.map Prod.fst).take o2)) := by
  intro rest
  induction rest with
  | nil =>
    intro ts i stk istk hdrop hi hlen hpw hA hB hC hpre hD
    have hiL : i = ts.length := by
      have h0 := congrArg List.length hdrop
      simp at h0
      omega
    subst hiL
    rw [List.take_of_length_le (by simp)] at hA
    have hlenpos : 0 < stk.length := by omega
    cases hstk : stk with
    | nil =>
      rw [hstk] at hlenpos
      simp at hlenpos
    | cons s0 stk2 =>
      obtain ⟨rs, cs⟩ := s0
      cases histk : istk with
      | nil =>
        rw [hstk, histk] at hlen
        simp at hlen
      | cons o istk2 =>
        subst hstk
        subst histk
        obtain ⟨ho_lt, ⟨d, r2, c2, hto, hsk⟩, hdep1, hstill⟩ :=
          hB 0 o (by rw [List.getElem?_cons_zero])
        simp only [List.getElem?_cons_zero, Option.some.injEq,
          Prod.mk.injEq] at hsk
        obtain ⟨hr2, hc2⟩ := hsk
        subst hr2
        subst hc2
        have hmo : (ts.map Prod.fst)[o]? = some (Token.OpenBr d) := by
          rw [List.getElem?_map, hto]
          rfl
        have hdo : depthL ((ts.map Prod.fst).take (o + 1)) =
            depthL ((ts.map Prod.fst).take o) + 1 := by
          rw [depthL_take_succ hmo]
          simp [br_adj]
        refine ⟨o, d, rs, cs, hto, rfl, ?_, ?_⟩
        · intro k hk1 hk2
          have h5 := hstill k hk1 (by simpa using hk2)
          simp only [Nat.cast_ofNat, CharP.cast_eq_zero] at h5
          omega
        · intro o2 ho2a ho2b
          have hno : o2 ∉ o :: istk2 := by
            intro hmem
            rcases List.mem_cons.1 hmem with rfl | hmem2
            · omega
            · have := (List.pairwise_cons.1 hpw).1 o2 hmem2
              omega
          obtain ⟨k, hk1, hk2, hk3⟩ := hC o2 ho2b hno
          exact ⟨k, hk1, hk2, hk3⟩
  | cons p rest2 ih =>
    obtain ⟨t, r0, c0⟩ := p
    intro ts i stk istk hdrop hi hlen hpw hA hB hC hpre hD
    have hget : ts[i]? = some (t, r0, c0) := by
      have h0 : (ts.drop i)[0]? = some (t, r0, c0) := by
        rw [hdrop]
        exact List.getElem?_cons_zero
      rw [List.getElem?_drop] at h0
      simpa using h0
    have hget_map : (ts.map Prod.fst)[i]? = some t := by
      rw [List.getElem?_map, hget]
      rfl
    have hdrop2 : ts.drop (i + 1) = rest2 := by
      rw [← List.drop_drop 1 i ts, hdrop]
      rfl
    have hilt : i < ts.length := by
      by_contra hcon
      push_neg at hcon
      rw [List.getElem?_eq_none hcon] at hget
      cases hget
    have hi1 : i + 1 ≤ ts.length := by omega
    have htake1 : depthL ((ts.map Prod.fst).take (i + 1)) =
        depthL ((ts.map Prod.fst).take i) + br_adj t :=
      depthL_take_succ hget_map
    cases t with
    | OpenBr d0 =>
      have hmemlt : ∀ o3 ∈ istk, o3 < i := by
        intro o3 hmem
        obtain ⟨j, hj⟩ := List.mem_iff_getElem?.1 hmem
        exact (hB j o3 hj).1
      obtain ⟨o, d, r, c, h1, h2, h3, h4⟩ :=
        ih ts (i + 1) ((r0, c0) :: stk) (i :: istk) hdrop2 hi1
          (by simp [hlen])
          (List.pairwise_cons.2 ⟨hmemlt, hpw⟩)
          (by
            rw [htake1]
            simp only [br_adj, List.length_cons]
            push_cast
            omega)
          (by
            intro j o hj
            cases j with
            | zero =>
              rw [List.getElem?_cons_zero] at hj
              injection hj with hj2
              subst hj2
              refine ⟨by omega,
                ⟨d0, r0, c0, hget, by rw [List.getElem?_cons_zero]⟩, ?_, ?_⟩
              · rw [htake1]
                simp only [br_adj, List.length_cons]
                push_cast
                omega
              · intro k hk1 hk2
                have hk3 : k = i + 1 := by omega
                subst hk3
                rw [htake1]
                simp only [br_adj, List.length_cons]
                push_cast
                omega
            | succ j2 =>
              rw [List.getElem?_cons_succ] at hj
              obtain ⟨ho1, ⟨d2, r2, c2, hto, hsk⟩, ho3, ho4⟩ := hB j2 o hj
              refine ⟨by omega,
                ⟨d2, r2, c2, hto, by rw [List.getElem?_cons_succ]; exact hsk⟩,
                ?_, ?_⟩
              · rw [ho3]
                simp only [List.length_cons]
                push_cast
                omega
              · intro k hk1 hk2
                rcases Nat.lt_or_ge k (i + 1) with hk3 | hk3
                · have h5 := ho4 k hk1 (by omega)
                  simp only [List.length_cons]
                  push_cast
                  omega
                · have hk4 : k = i + 1 := by omega
                  subst hk4
                  have h5 := ho4 i ho1 (le_refl i)
                  rw [htake1]
                  simp only [br_adj, List.length_cons]
                  push_cast
                  omega)
          (by
            intro o2 ho2 hno
            have hne : o2 ≠ i := by
              intro hcon
              exact hno (hcon ▸ List.mem_cons_self i istk)
            have ho3 : o2 < i := by omega
            have hno2 : o2 ∉ istk := fun hmem =>
              hno (List.mem_cons_of_mem i hmem)
            obtain ⟨k, hk1, hk2, hk3⟩ := hC o2 ho3 hno2
            exact ⟨k, hk1, by omega, hk3⟩)
          hpre hD
      exact ⟨o, d, r, c, h1, h2, h3, h4⟩
    | CloseBr d0 =>
      have hstklen : 0 < stk.length := by
        have h2 := hpre (i + 1)
        rw [htake1] at h2
        simp only [br_adj] at h2
        omega
      cases hstk : stk with
      | nil =>
        rw [hstk] at hstklen
        simp at hstklen
      | cons s0 stk2 =>
        obtain ⟨rq, cq⟩ := s0
        cases histk : istk with
        | nil =>
          rw [hstk, histk] at hlen
          simp at hlen
        | cons oq istk2 =>
          subst hstk
          subst histk
          obtain ⟨hoq1, ⟨dq, rq2, cq2, htoq, hskq⟩, hoq3, hoq4⟩ :=
            hB 0 oq (by rw [List.getElem?_cons_zero])
          have hmoq : (ts.map Prod.fst)[oq]? = some (Token.OpenBr dq) := by
            rw [List.getElem?_map, htoq]
            rfl
          have hdoq : depthL ((ts.map Prod.fst).take (oq + 1)) =
              depthL ((ts.map Prod.fst).take oq) + 1 := by
            rw [depthL_take_succ hmoq]
            simp [br_adj]
          obtain ⟨o, d, r, c, h1, h2, h3, h4⟩ :=
            ih ts (i + 1) stk2 istk2 hdrop2 hi1
              (by simpa using hlen)
              (List.pairwise_cons.1 hpw).2
              (by
                rw [htake1]
                simp only [br_adj, List.length_cons] at hA ⊢
                push_cast at hA ⊢
                omega)
              (by
                intro j o hj
                obtain ⟨ho1, ⟨d2, r2, c2, hto, hsk⟩, ho3, ho4⟩ :=
                  hB (j + 1) o (by rw [List.getElem?_cons_succ]; exact hj)
                refine ⟨by omega, ⟨d2, r2, c2, hto, by
                  rw [List.getElem?_cons_succ] at hsk
                  exact hsk⟩, ?_, ?_⟩
                · rw [ho3]
                  simp only [List.length_cons]
                  push_cast
                  omega
                · intro k hk1 hk2
                  rcases Nat.lt_or_ge k (i + 1) with hk3 | hk3
                  · have h5 := ho4 k hk1 (by omega)
                    simp only [List.length_cons] at h5 ⊢
                    push_cast at h5 ⊢
                    omega
                  · have hk4 : k = i + 1 := by omega
                    subst hk4
                    rw [htake1]
                    simp only [br_adj, List.length_cons] at hA ⊢
                    push_cast at hA ⊢
                    omega)
              (by
                intro o2 ho2 hno
                rcases Nat.lt_or_ge o2 i with ho3 | ho3
                · by_cases hoqeq : o2 = oq
                  · subst hoqeq
                    refine ⟨i + 1, by omega, le_refl _, ?_⟩
                    rw [htake1]
                    simp only [br_adj, List.length_cons] at hA hoq3 ⊢
                    push_cast at hA hoq3 ⊢
                    omega
                  · have hno2 : o2 ∉ oq :: istk2 := by
                      intro hmem
                      rcases List.mem_cons.1 hmem with rfl | hmem2
                      · exact hoqeq rfl
                      · exact hno hmem2
                    obtain ⟨k, hk1, hk2, hk3⟩ := hC o2 ho3 hno2
                    exact ⟨k, hk1, by omega, hk3⟩
                · have ho4 : o2 = i := by omega
                  refine ⟨i + 1, by omega, le_refl _, ?_⟩
                  rw [ho4, htake1]
                  simp only [br_adj]
                  omega)
              hpre hD
          exact ⟨o, d, r, c, h1, h2, h3, h4⟩
    | Add m =>
      obtain ⟨o, d, r, c, h1, h2, h3, h4⟩ :=
        ih ts (i + 1) stk istk hdrop2 hi1 hlen hpw
          (by rw [htake1]; simp only [br_adj]; omega)
          (by
            intro j o hj
            obtain ⟨ho1, ho2, ho3, ho4⟩ := hB j o hj
            refine ⟨by omega, ho2, ho3, ?_⟩
            intro k hk1 hk2
            rcases Nat.lt_or_ge k (i + 1) with hk3 | hk3
            · exact ho4 k hk1 (by omega)
            · have hk4 : k = i + 1 := by omega
              subst hk4
              have h5 := ho4 i ho1 (le_refl i)
              rw [htake1]
              simp only [br_adj]
              omega)
          (by
            intro o2 ho2 hno
            rcases Nat.lt_or_ge o2 i with ho3 | ho3
            · obtain ⟨k, hk1, hk2, hk3⟩ := hC o2 ho3 hno
              exact ⟨k, hk1, by omega, hk3⟩
            · have ho4 : o2 = i := by omega
              refine ⟨i + 1, by omega, le_refl _, ?_⟩
              rw [ho4, htake1]
              simp only [br_adj]
              omega)
          hpre hD
      exact ⟨o, d, r, c, h1, h2, h3, h4⟩
    | Move m =>
      obtain ⟨o, d, r, c, h1, h2, h3, h4⟩ :=
        ih ts (i + 1) stk istk hdrop2 hi1 hlen hpw
          (by rw [htake1]; simp only [br_adj]; omega)
          (by
            intro j o hj
            obtain ⟨ho1, ho2, ho3, ho4⟩ := hB j o hj
            refine ⟨by omega, ho2, ho3, ?_⟩
            intro k hk1 hk2
            rcases Nat.lt_or_ge k (i + 1) with hk3 | hk3
            · exact ho4 k hk1 (by omega)
            · have hk4 : k = i + 1 := by omega
              subst hk4
              have h5 := ho4 i ho1 (le_refl i)
              rw [htake1]
              simp only [br_adj]
              omega)
          (by
            intro o2 ho2 hno
            rcases Nat.lt_or_ge o2 i with ho3 | ho3
            · obtain ⟨k, hk1, hk2, hk3⟩ := hC o2 ho3 hno
              exact ⟨k, hk1, by omega, hk3⟩
            · have ho4 : o2 = i := by omega
              refine ⟨i + 1, by omega, le_refl _, ?_⟩
              rw [ho4, htake1]
              simp only [br_adj]
              omega)
          hpre hD
      exact ⟨o, d, r, c, h1, h2, h3, h4⟩
    | Input =>
      obtain ⟨o, d, r, c, h1, h2, h3, h4⟩ :=
        ih ts (i + 1) stk istk hdrop2 hi1 hlen hpw
          (by rw [htake1]; simp only [br_adj]; omega)
          (by
            intro j o hj
            obtain ⟨ho1, ho2, ho3, ho4⟩ := hB j o hj
            refine ⟨by omega, ho2, ho3, ?_⟩
            intro k hk1 hk2
            rcases Nat.lt_or_ge k (i + 1) with hk3 | hk3
            · exact ho4 k hk1 (by omega)
            · have hk4 : k = i + 1 := by omega
              subst hk4
              have h5 := ho4 i ho1 (le_refl i)
              rw [htake1]
              simp only [br_adj]
              omega)
          (by
            intro o2 ho2 hno
            rcases Nat.lt_or_ge o2 i with ho3 | ho3
            · obtain ⟨k, hk1, hk2, hk3⟩ := hC o2 ho3 hno
              exact ⟨k, hk1, by omega, hk3⟩
            · have ho4 : o2 = i := by omega
              refine ⟨i + 1, by omega, le_refl _, ?_⟩
              rw [ho4, htake1]
              simp only [br_adj]
              omega)
          hpre hD
      exact ⟨o, d, r, c, h1, h2, h3, h4⟩
    | Output =>
      obtain ⟨o, d, r, c, h1, h2, h3, h4⟩ :=
        ih ts (i + 1) stk istk hdrop2 hi1 hlen hpw
          (by rw [htake1]; simp only [br_adj]; omega)
          (by
            intro j o hj
            obtain ⟨ho1, ho2, ho3, ho4⟩ := hB j o hj
            refine ⟨by omega, ho2, ho3, ?_⟩
            intro k hk1 hk2
            rcases Nat.lt_or_ge k (i + 1) with hk3 | hk3
            · exact ho4 k hk1 (by omega)
            · have hk4 : k = i + 1 := by omega
              subst hk4
              have h5 := ho4 i ho1 (le_refl i)
              rw [htake1]
              simp only [br_adj]
              omega)
          (by
            intro o2 ho2 hno
            rcases Nat.lt_or_ge o2 i with ho3 | ho3
            · obtain ⟨k, hk1, hk2, hk3⟩ := hC o2 ho3 hno
              exact ⟨k, hk1, by omega, hk3⟩
            · have ho4 : o2 = i := by omega
              refine ⟨i + 1, by omega, le_refl _, ?_⟩
              rw [ho4, htake1]
              simp only [br_adj]
              omega)
          hpre hD
      exact ⟨o, d, r, c, h1, h2, h3, h4⟩
    | ClearCell =>
      obtain ⟨o, d, r, c, h1, h2, h3, h4⟩ :=
        ih ts (i + 1) stk istk hdrop2 hi1 hlen hpw
          (by rw [htake1]; simp only [br_adj]; omega)
          (by
            intro j o hj
            obtain ⟨ho1, ho2, ho3, ho4⟩ := hB j o hj
            refine ⟨by omega, ho2, ho3, ?_⟩
            intro k hk1 hk2
            rcases Nat.lt_or_ge k (i + 1) with hk3 | hk3
            · exact ho4 k hk1 (by omega)
            · have hk4 : k = i + 1 := by omega
              subst hk4
              have h5 := ho4 i ho1 (le_refl i)
              rw [htake1]
              simp only [br_adj]
              omega)
          (by
            intro o2 ho2 hno
            rcases Nat.lt_or_ge o2 i with ho3 | ho3
            · obtain ⟨k, hk1, hk2, hk3⟩ := hC o2 ho3 hno
              exact ⟨k, hk1, by omega, hk3⟩
            · have ho4 : o2 = i := by omega
              refine ⟨i + 1, by omega, le_refl _, ?_⟩
              rw [ho4, htake1]
              simp only [br_adj]
              omega)
          hpre hD
      exact ⟨o, d, r, c, h1, h2, h3, h4⟩
    | AddTo dd =>
      obtain ⟨o, d, r, c, h1, h2, h3, h4⟩ :=
        ih ts (i + 1) stk istk hdrop2 hi1 hlen hpw
          (by rw [htake1]; simp only [br_adj]; omega)
          (by
            intro j o hj
            obtain ⟨ho1, ho2, ho3, ho4⟩ := hB j o hj
            refine ⟨by omega, ho2, ho3, ?_⟩
            intro k hk1 hk2
            rcases Nat.lt_or_ge k (i + 1) with hk3 | hk3
            · exact ho4 k hk1 (by omega)
            · have hk4 : k = i + 1 := by omega
              subst hk4
              have h5 := ho4 i ho1 (le_refl i)
              rw [htake1]
              simp only [br_adj]
              omega)
          (by
            intro o2 ho2 hno
            rcases Nat.lt_or_ge o2 i with ho3 | ho3
            · obtain ⟨k, hk1, hk2, hk3⟩ := hC o2 ho3 hno
              exact ⟨k, hk1, by omega, hk3⟩
            · have ho4 : o2 = i := by omega
              refine ⟨i + 1, by omega, le_refl _, ?_⟩
              rw [ho4, htake1]
              simp only [br_adj]
              omega)
          hpre hD
      exact ⟨o, d, r, c, h1, h2, h3, h4⟩
    | AddToCopy dd1 dd2 =>
      obtain ⟨o, d, r, c, h1, h2, h3, h4⟩ :=
        ih ts (i + 1) stk istk hdrop2 hi1 hlen hpw
          (by rw [htake1]; simp only [br_adj]; omega)
          (by
            intro j o hj
            obtain ⟨ho1, ho2, ho3, ho4⟩ := hB j o hj
            refine ⟨by omega, ho2, ho3, ?_⟩
            intro k hk1 hk2
            rcases Nat.lt_or_ge k (i + 1) with hk3 | hk3
            · exact ho4 k hk1 (by omega)
            · have hk4 : k = i + 1 := by omega
              subst hk4
              have h5 := ho4 i ho1 (le_refl i)
              rw [htake1]
              simp only [br_adj]
              omega)
          (by
            intro o2 ho2 hno
            rcases Nat.lt_or_ge o2 i with ho3 | ho3
            · obtain ⟨k, hk1, hk2, hk3⟩ := hC o2 ho3 hno
              exact ⟨k, hk1, by omega, hk3⟩
            · have ho4 : o2 = i := by omega
              refine ⟨i + 1, by omega, le_refl _, ?_⟩
              rw [ho4, htake1]
              simp only [br_adj]
              omega)
          hpre hD
      exact ⟨o, d, r, c, h1, h2, h3, h4⟩

/-- C8: bracket validation — the source `]` alone yields
`UnmatchedCloseBr(1, 1)`; a bracket error from the single stack scan of
`check_loops` aborts the front-end (`process_code` returns exactly that
one error and runs no later pass); a close bracket reached when the
running count of opens minus closes is exhausted (the stack is empty)
yields `UnmatchedCloseBr` at that closer's location; and a scan ending
with opens left over yields `UnmatchedOpenBr` at the location of the
top-most remaining opener: an opener whose depth level is never closed
again, every position after which is matched (its depth level is reached
again later). -/
theorem claim_C8_bracket_validation :
    process_code "]" = some (Except.error (Error.UnmatchedCloseBr 1 1)) ∧
    (∀ code e, check_loops (merge_adjacent (lex code)) = .error e →
      process_code code = some (.error e)) ∧
    (∀ (ts : List LTok) (j d r c : Nat),
      ts[j]? = some (Token.CloseBr d, r, c) →
      depthL ((ts.map Prod.fst).take (j + 1)) < 0 →
      (∀ k, k ≤ j → 0 ≤ depthL ((ts.map Prod.fst).take k)) →
      check_loops ts = .error (.UnmatchedCloseBr r c)) ∧
    (∀ ts : List LTok,
      (∀ k, 0 ≤ depthL ((ts.map Prod.fst).take k)) →
      0 < depthL (ts.map Prod.fst) →
      ∃ o d r c, ts[o]? = some (Token.OpenBr d, r, c) ∧
        check_loops ts = .error (.UnmatchedOpenBr r c) ∧
        (∀ k, o < k → k ≤ ts.length →
          depthL ((ts.map Prod.fst).take o) <
            depthL ((ts.map Prod.fst).take k)) ∧
        (∀ o2, o < o2 → o2 < ts.length →
          ∃ k, o2 < k ∧ k ≤ ts.length ∧
            depthL ((ts.map Prod.fst).take k) ≤
              depthL ((ts.map Prod.fst).take o2))) := by
  refine ⟨rfl, ?_, ?_, ?_⟩
  · intro code e hc
    rw [process_code, hc]
  · intro ts j d r c hj hneg hnn
    exact check_loops_go_excess ts [] j d r c hj (by simpa using hneg)
      (fun k hk => by simpa using hnn k hk)
  · intro ts hpre hD
    obtain ⟨o, d, r, c, h1, h2, h3, h4⟩ :=
      check_loops_go_open ts ts 0 [] [] rfl (by omega) rfl
        List.Pairwise.nil (by simp [depthL])
        (by intro j o hj; simp at hj)
        (by intro o2 h2 h3; exact absurd h2 (Nat.not_lt_zero o2))
        hpre hD
    exact ⟨o, d, r, c, h1, h2, h3, h4⟩

end Bfuck

